import Mathlib

/-!
# Tag matching of `mapping/matcher.go`

A shallow embedding of the tag matcher of imposm3 (`tagMatcher.match` and its
three entry points `MatchNode`, `MatchWay`, `MatchRelation`) together with the
properties of the candidate resolution, of the line/area disambiguation of
closed ways and of the filter chains.

Go maps are embedded as association lists read with `mapGet` (first binding of
a key) and written with `mapSet` (replace in place, else append), so that the
list order stands for one iteration order of the map.
-/

namespace Mapping

/-! ## Go maps as association lists -/

/-- The Go read `m[k]` with its `ok` flag: `none` when the key is absent. -/
def mapGet {κ ν : Type} [DecidableEq κ] : List (κ × ν) → κ → Option ν
  | [], _ => none
  | (k', v') :: rest, k => if k' = k then some v' else mapGet rest k

/-- The Go write `m[k] = v`: the binding of `k` is replaced, or added. -/
def mapSet {κ ν : Type} [DecidableEq κ] : List (κ × ν) → κ → ν → List (κ × ν)
  | [], k, v => [(k, v)]
  | (k', v') :: rest, k, v =>
    if k' = k then (k, v) :: rest else (k', v') :: mapSet rest k v

/-! ## Data model -/

/-- The tags of a feature, `element.Tags` (a `map[string]string`). -/
abbrev Tags := List (String × String)

/-- The Go read `tags[k]`: the empty string when the key is absent. -/
def Tags.get (tags : Tags) (k : String) : String :=
  (mapGet tags k).getD ""

/-- The Go test `_, ok := tags[k]`. -/
def Tags.has (tags : Tags) (k : String) : Bool :=
  (mapGet tags k).isSome

/-- Modelled from the spec: the declaration of `DestTable` is not part of
`matcher.go`; a destination table is an output table identity made of a name
and a geometry kind. The matcher reads `Name` and uses the whole value as a map
key. -/
structure DestTable where
  Name : String
  Kind : String
  deriving DecidableEq, Repr

/-- Modelled from the spec: the declaration of `orderedDestTable` is not part
of `matcher.go`; a priority entry binds a destination table to a declaration
order (smaller means declared earlier). -/
structure orderedDestTable extends DestTable where
  order : Int
  deriving DecidableEq, Repr

/-- Modelled from the spec: `TagTableMapping`, the two-level index
key → value → ordered list of priority entries. -/
abbrev TagTableMapping := List (String × List (String × List orderedDestTable))

/-- Modelled from the spec: an element filter is a predicate over
(tags, triggering key, closed). -/
abbrev ElementFilter := Tags → String → Bool → Bool

/-- Modelled from the spec: `tableElementFilters`, table name → ordered list
of predicates. -/
abbrev tableElementFilters := List (String × List ElementFilter)

/-- The struct `Match`; `builder` is the pointer to the row schema of the
table (`none` is the nil pointer), over an arbitrary type `β` of row schemas. -/
structure Match (β : Type) where
  Key : String
  Value : String
  Table : DestTable
  builder : Option β
  deriving DecidableEq, Repr

/-- The struct `orderedMatch`: a `Match` with the order of its entry. -/
structure orderedMatch (β : Type) extends Match β where
  order : Int
  deriving DecidableEq, Repr

/-- The struct `tagMatcher`. -/
structure tagMatcher (β : Type) where
  mappings : TagTableMapping
  tables : List (String × β)
  filters : tableElementFilters
  relFilters : tableElementFilters
  areaTags : List String
  linearTags : List String
  matchLines : Bool
  matchAreas : Bool

/-- A node, read through its tags only. -/
structure Node where
  Tags : Tags

/-- A way: its tags and the result of `way.IsClosed()`, a method of the
`element` package. -/
structure Way where
  Tags : Tags
  IsClosed : Bool

/-- A relation, read through its tags only. -/
structure Relation where
  Tags : Tags

/-! ## `tagMatcher.match` -/

/-- One iteration of the loop of the closure `addTables`: the candidate `this`
for entry `t` is stored unless the stored candidate has a strictly smaller
order. -/
def addTable {β : Type} (tm : tagMatcher β) (k v : String)
    (tables : List (DestTable × orderedMatch β)) (t : orderedDestTable) :
    List (DestTable × orderedMatch β) :=
  let this : orderedMatch β :=
    { Key := k, Value := v, Table := t.toDestTable,
      builder := mapGet tm.tables t.Name, order := t.order }
  let this : orderedMatch β :=
    match mapGet tables t.toDestTable with
    | some other => if other.order < this.order then other else this
    | none => this
  mapSet tables t.toDestTable this

/-- The closure `addTables` of `tagMatcher.match`. -/
def addTables {β : Type} (tm : tagMatcher β)
    (tables : List (DestTable × orderedMatch β)) (k v : String)
    (tbls : List orderedDestTable) : List (DestTable × orderedMatch β) :=
  tbls.foldl (addTable tm k v) tables

/-- The body of the loop `for k, v := range tags` of `tagMatcher.match`. -/
def addTag {β : Type} (tm : tagMatcher β)
    (tables : List (DestTable × orderedMatch β)) (kv : String × String) :
    List (DestTable × orderedMatch β) :=
  match mapGet tm.mappings kv.1 with
  | some values =>
    let tables :=
      match mapGet values "__any__" with
      | some tbls => addTables tm tables kv.1 kv.2 tbls
      | none => tables
    match mapGet values kv.2 with
    | some tbls => addTables tm tables kv.1 kv.2 tbls
    | none => tables
  | none => tables

/-- The first half of `tagMatcher.match`: the map `tables` once the wildcard
key and every tag have been processed. -/
def candidates {β : Type} (tm : tagMatcher β) (tags : Tags) :
    List (DestTable × orderedMatch β) :=
  let tables : List (DestTable × orderedMatch β) := []
  let tables :=
    match mapGet tm.mappings "__any__" with
    | some values =>
      addTables tm tables "__any__" "__any__" ((mapGet values "__any__").getD [])
    | none => tables
  tags.foldl (addTag tm) tables

/-- The loops `for k, _ := range tm.linearTags` and
`for k, _ := range tm.areaTags`: the first key present on the feature sets
`filteredOut` to `newValue` and leaves the loop. -/
def overrideLoop (tags : Tags) (newValue : Bool) : List String → Bool → Bool
  | [], filteredOut => filteredOut
  | k :: ks, filteredOut =>
    if tags.has k then newValue else overrideLoop tags newValue ks filteredOut

/-- The value of `filteredOut` after the block
`if !relation && (tm.matchLines || tm.matchAreas)`. -/
def geometryFilteredOut {β : Type} (tm : tagMatcher β) (tags : Tags)
    (closed relation : Bool) : Bool :=
  let filteredOut := false
  if !relation && (tm.matchLines || tm.matchAreas) then
    if !closed then
      tm.matchLines == false
    else
      let filteredOut :=
        (tm.matchAreas && tags.get "area" == "no") ||
          (!tm.matchAreas && tags.get "area" != "no")
      let filteredOut := overrideLoop tags tm.matchAreas tm.linearTags filteredOut
      let filteredOut := if tags.get "area" == "yes" then tm.matchAreas else filteredOut
      let filteredOut := overrideLoop tags (!tm.matchAreas) tm.areaTags filteredOut
      filteredOut
  else
    filteredOut

/-- The loop `for _, filter := range filters`: the first predicate that
rejects sets `filteredOut` and leaves the loop. -/
def filterLoop (tags : Tags) (key : String) (closed : Bool) :
    List ElementFilter → Bool → Bool
  | [], filteredOut => filteredOut
  | filter :: rest, filteredOut =>
    if !filter tags key closed then true else filterLoop tags key closed rest filteredOut

/-- The value of `filteredOut` at the end of the body of the loop
`for t, match := range tables`. -/
def filteredOut {β : Type} (tm : tagMatcher β) (tags : Tags) (closed relation : Bool)
    (t : DestTable) (m : orderedMatch β) : Bool :=
  let filteredOut := geometryFilteredOut tm tags closed relation
  let filteredOut :=
    match mapGet tm.filters t.Name with
    | some filters =>
      if !filteredOut then filterLoop tags m.Key closed filters filteredOut else filteredOut
    | none => filteredOut
  let filteredOut :=
    if relation && !filteredOut then
      match mapGet tm.relFilters t.Name with
      | some filters => filterLoop tags m.Key closed filters filteredOut
      | none => filteredOut
    else filteredOut
  filteredOut

/-- The method `tagMatcher.match`. -/
def tagMatcher.match_ {β : Type} (tm : tagMatcher β) (tags : Tags)
    (closed relation : Bool) : List (Match β) :=
  let tables := candidates tm tags
  tables.foldl
    (fun found p =>
      if !filteredOut tm tags closed relation p.1 p.2 then found ++ [p.2.toMatch]
      else found)
    []

/-- The method `tagMatcher.MatchNode`. -/
def tagMatcher.MatchNode {β : Type} (tm : tagMatcher β) (node : Node) : List (Match β) :=
  tm.match_ node.Tags false false

/-- The method `tagMatcher.MatchWay`. -/
def tagMatcher.MatchWay {β : Type} (tm : tagMatcher β) (way : Way) : List (Match β) :=
  tm.match_ way.Tags way.IsClosed false

/-- The method `tagMatcher.MatchRelation`. -/
def tagMatcher.MatchRelation {β : Type} (tm : tagMatcher β) (rel : Relation) :
    List (Match β) :=
  tm.match_ rel.Tags true true

/-! ## Candidates, as the claims enumerate them -/

/-- The candidate `this` built by `addTables` for key `k`, value `v` and
entry `t`. -/
def mkCandidate {β : Type} (tm : tagMatcher β) (k v : String) (t : orderedDestTable) :
    orderedMatch β :=
  { Key := k, Value := v, Table := t.toDestTable,
    builder := mapGet tm.tables t.Name, order := t.order }

/-- Storing one candidate in the map `tables`: it replaces the stored
candidate of its table unless that one has a strictly smaller order. -/
def store {β : Type} (tables : List (DestTable × orderedMatch β)) (c : orderedMatch β) :
    List (DestTable × orderedMatch β) :=
  mapSet tables c.Table
    (match mapGet tables c.Table with
     | some other => if other.order < c.order then other else c
     | none => c)

/-- The entries of the index for the wildcard key: those listed under
`"__any__"` / `"__any__"`. -/
def wildcardEntries {β : Type} (tm : tagMatcher β) : List orderedDestTable :=
  match mapGet tm.mappings "__any__" with
  | some values => (mapGet values "__any__").getD []
  | none => []

/-- The entries of the index for a tag `k=v` of the feature: those listed
under `k` / `"__any__"`, then those listed under `k` / `v`. -/
def tagEntries {β : Type} (tm : tagMatcher β) (k v : String) : List orderedDestTable :=
  match mapGet tm.mappings k with
  | some values => (mapGet values "__any__").getD [] ++ (mapGet values v).getD []
  | none => []

/-- Where a candidate comes from: the wildcard-key entry of the index, or a
tag `key=value` of the feature. -/
inductive Source where
  | wildcard : Source
  | tag (key value : String) : Source
  deriving DecidableEq, Repr

/-- The key a candidate of this source carries. -/
def Source.Key : Source → String
  | .wildcard => "__any__"
  | .tag k _ => k

/-- The value a candidate of this source carries. -/
def Source.Value : Source → String
  | .wildcard => "__any__"
  | .tag _ v => v

/-- The entries of the index a source contributes. -/
def Source.entries {β : Type} (tm : tagMatcher β) : Source → List orderedDestTable
  | .wildcard => wildcardEntries tm
  | .tag k v => tagEntries tm k v

/-- The sources of a feature: the wildcard key, then each of its tags. -/
def sources (tags : Tags) : List Source :=
  Source.wildcard :: tags.map (fun kv => Source.tag kv.1 kv.2)

/-- Two sources come from different keys: two tags with different keys, or
the wildcard-key entry and a tag. -/
def Source.otherKey : Source → Source → Bool
  | .wildcard, .wildcard => false
  | .tag k _, .tag k' _ => k != k'
  | _, _ => true

/-- All candidates of a feature, in the order in which `tagMatcher.match`
builds them. -/
def candidateSeq {β : Type} (tm : tagMatcher β) (tags : Tags) : List (orderedMatch β) :=
  (wildcardEntries tm).map (mkCandidate tm "__any__" "__any__") ++
    tags.flatMap (fun kv => (tagEntries tm kv.1 kv.2).map (mkCandidate tm kv.1 kv.2))

/-- The map `tables` holds, for each table of `seq`, a candidate of `seq` of
least order, and nothing else. -/
def Resolved {β : Type} (seq : List (orderedMatch β))
    (tables : List (DestTable × orderedMatch β)) : Prop :=
  (tables.map Prod.fst).Nodup ∧
  (∀ t om, mapGet tables t = some om →
    om ∈ seq ∧ om.Table = t ∧ ∀ c ∈ seq, c.Table = t → om.order ≤ c.order) ∧
  (∀ c ∈ seq, ∃ om, mapGet tables c.Table = some om)

/-! ## Filter chains and matcher kinds, as the claims name them -/

/-- Every predicate of the chain registered under `name` returns true on
(tags, key, closed); a name with no registered chain passes. -/
def chainPasses (chains : tableElementFilters) (name : String) (tags : Tags)
    (key : String) (closed : Bool) : Bool :=
  match mapGet chains name with
  | some filters => filters.all (fun filter => filter tags key closed)
  | none => true

/-- The Matches of the candidate tables whose plain filter chain passes on
the winning key. -/
def chainMatches {β : Type} (tm : tagMatcher β) (tags : Tags) (closed : Bool) :
    List (Match β) :=
  ((candidates tm tags).filter
    (fun p => chainPasses tm.filters p.1.Name tags p.2.Key closed)).map
    (fun p => p.2.toMatch)

/-- The Matches of the candidate tables whose plain and relation filter
chains both pass on the winning key, with `closed = true`. -/
def relChainMatches {β : Type} (tm : tagMatcher β) (tags : Tags) : List (Match β) :=
  ((candidates tm tags).filter
    (fun p => chainPasses tm.filters p.1.Name tags p.2.Key true &&
      chainPasses tm.relFilters p.1.Name tags p.2.Key true)).map
    (fun p => p.2.toMatch)

/-- An area-capable matcher, as `polygonMatcher` builds it. -/
def AreaCapable {β : Type} (tm : tagMatcher β) : Prop :=
  tm.matchAreas = true ∧ tm.matchLines = false

/-- A line-capable matcher, as `lineStringMatcher` builds it. -/
def LineCapable {β : Type} (tm : tagMatcher β) : Prop :=
  tm.matchLines = true ∧ tm.matchAreas = false

/-! ## Example configurations -/

/-- The index of the scenario of the specification: `amenity` (order 0) and
`shop` (order 1) both map to the table `points`. -/
def scenarioIndex : TagTableMapping :=
  [("amenity", [("__any__", [{ Name := "points", Kind := "point", order := 0 }])]),
   ("shop", [("__any__", [{ Name := "points", Kind := "point", order := 1 }])])]

/-- A point matcher over `scenarioIndex`, without filters. -/
def scenarioMatcher : tagMatcher Unit :=
  { mappings := scenarioIndex, tables := [("points", ())], filters := [], relFilters := [],
    areaTags := [], linearTags := [], matchLines := false, matchAreas := false }

/-- An index for ways: `building`, `area`, `highway` and `landuse`, with any
value, map to the table `ways`. -/
def wayIndex : TagTableMapping :=
  [("building", [("__any__", [{ Name := "ways", Kind := "way", order := 0 }])]),
   ("area", [("__any__", [{ Name := "ways", Kind := "way", order := 1 }])]),
   ("highway", [("__any__", [{ Name := "ways", Kind := "way", order := 2 }])]),
   ("landuse", [("__any__", [{ Name := "ways", Kind := "way", order := 3 }])])]

/-- A line-capable matcher over `wayIndex`: `highway` is a linear tag and
`landuse` an area tag. -/
def lineMatcher : tagMatcher Unit :=
  { mappings := wayIndex, tables := [("ways", ())], filters := [], relFilters := [],
    areaTags := ["landuse"], linearTags := ["highway"],
    matchLines := true, matchAreas := false }

/-- The area-capable matcher with the configuration of `lineMatcher`. -/
def areaMatcher : tagMatcher Unit :=
  { mappings := wayIndex, tables := [("ways", ())], filters := [], relFilters := [],
    areaTags := ["landuse"], linearTags := ["highway"],
    matchLines := false, matchAreas := true }

/-- A relation-capable variant of `areaMatcher` with a plain filter chain
(the feature is not tagged `access=private`) and a relation filter chain (the
relation is tagged `type=multipolygon`) on the table `ways`. -/
def filteredMatcher : tagMatcher Unit :=
  { mappings := wayIndex, tables := [("ways", ())],
    filters := [("ways", [fun tags _ _ => tags.get "access" != "private"])],
    relFilters := [("ways", [fun tags _ _ => tags.get "type" == "multipolygon"])],
    areaTags := ["landuse"], linearTags := ["highway"],
    matchLines := false, matchAreas := true }

/-- An index with a wildcard-key rule: every feature goes to the table `all`
(order 5), and so do the features tagged `amenity` (order 7). -/
def anyIndex : TagTableMapping :=
  [("__any__", [("__any__", [{ Name := "all", Kind := "point", order := 5 }])]),
   ("amenity", [("__any__", [{ Name := "all", Kind := "point", order := 7 }])])]

/-- A point matcher over `anyIndex`, without filters. -/
def anyMatcher : tagMatcher Unit :=
  { mappings := anyIndex, tables := [("all", ())], filters := [], relFilters := [],
    areaTags := [], linearTags := [], matchLines := false, matchAreas := false }

/-! ## Row builder -/

/-- The struct `element.OSMElem`, read through its tags only. -/
structure OSMElem where
  Tags : Tags

/-- The embedded `OSMElem` of a relation, `rel.OSMElem`. -/
def Relation.OSMElem (rel : Relation) : OSMElem :=
  { Tags := rel.Tags }

/-- The struct `element.Member`: the role of the member and the pointer `Elem`
to its resolved sub-feature (`none` is the nil pointer). -/
structure Member where
  Role : String
  Elem : Option OSMElem

/-- Modelled from the spec: the declaration of `ColumnType` is not part of
`matcher.go`; a column has an optional value function
(tag value, feature, geometry, match) → value, an optional member function
(relation, member, match) → value and the flag "derive the value from the
member". `γ` is the type of geometries, `μ` the type of the match handed to the
functions, and a Go `interface{}` result is an `Option ν`, `none` being nil. -/
structure ColumnType (γ μ ν : Type) where
  Func : Option (String → OSMElem → γ → μ → Option ν)
  MemberFunc : Option (Relation → Member → μ → Option ν)
  FromMember : Bool

/-- The struct `valueBuilder`. -/
structure valueBuilder (γ μ ν : Type) where
  key : String
  colType : ColumnType γ μ ν

/-- The method `valueBuilder.Value`. -/
def valueBuilder.Value {γ μ ν : Type} (v : valueBuilder γ μ ν) (elem : OSMElem)
    (geom : γ) (match_ : μ) : Option ν :=
  match v.colType.Func with
  | some func => func (elem.Tags.get v.key) elem geom match_
  | none => none

/-- The method `valueBuilder.MemberValue`. -/
def valueBuilder.MemberValue {γ μ ν : Type} (v : valueBuilder γ μ ν) (rel : Relation)
    (member : Member) (geom : γ) (match_ : μ) : Option ν :=
  match v.colType.Func with
  | some func =>
    if v.colType.FromMember then
      match member.Elem with
      | none => none
      | some elem => func (elem.Tags.get v.key) elem geom match_
    else
      func (rel.Tags.get v.key) rel.OSMElem geom match_
  | none =>
    match v.colType.MemberFunc with
    | some memberFunc => memberFunc rel member match_
    | none => none

/-- The struct `rowBuilder`. -/
structure rowBuilder (γ μ ν : Type) where
  columns : List (valueBuilder γ μ ν)

/-- The method `rowBuilder.MakeRow`. -/
def rowBuilder.MakeRow {γ μ ν : Type} (r : rowBuilder γ μ ν) (elem : OSMElem)
    (geom : γ) (match_ : μ) : List (Option ν) :=
  r.columns.foldl (fun row column => row ++ [column.Value elem geom match_]) []

/-- The method `rowBuilder.MakeMemberRow`. -/
def rowBuilder.MakeMemberRow {γ μ ν : Type} (r : rowBuilder γ μ ν) (rel : Relation)
    (member : Member) (geom : γ) (match_ : μ) : List (Option ν) :=
  r.columns.foldl (fun row column => row ++ [column.MemberValue rel member geom match_]) []

/-- The Match as the column functions receive it: a row schema cannot hold
functions over Matches that hold this row schema, so the pointer `builder` is
kept only as nil or not nil. -/
def Match.view {β : Type} (m : Match β) : Match Unit :=
  { Key := m.Key, Value := m.Value, Table := m.Table,
    builder := m.builder.map (fun _ => ()) }

/-- The method `Match.Row`; `none` is the failure of the call on a nil
`builder`, which dereferences the nil pointer. -/
def Match.Row {γ ν : Type} (m : Match (rowBuilder γ (Match Unit) ν)) (elem : OSMElem)
    (geom : γ) : Option (List (Option ν)) :=
  match m.builder with
  | some builder => some (builder.MakeRow elem geom m.view)
  | none => none

/-- The method `Match.MemberRow`; `none` is the failure of the call on a nil
`builder`. -/
def Match.MemberRow {γ ν : Type} (m : Match (rowBuilder γ (Match Unit) ν))
    (rel : Relation) (member : Member) (geom : γ) : Option (List (Option ν)) :=
  match m.builder with
  | some builder => some (builder.MakeMemberRow rel member geom m.view)
  | none => none

/-- A column with no value function, a member function returning the role of
the member, and the flag "derive the value from the member" set. -/
def roleColumn : valueBuilder Unit (Match Unit) String :=
  { key := "role",
    colType :=
      { Func := none, MemberFunc := some (fun _ member _ => some member.Role),
        FromMember := true } }

/-- A column copying the tag `name`. -/
def nameColumn : valueBuilder Unit (Match Unit) String :=
  { key := "name",
    colType := { Func := some (fun val _ _ _ => some val), MemberFunc := none,
                 FromMember := false } }

/-- A column copying the tag `name` of the member. -/
def memberNameColumn : valueBuilder Unit (Match Unit) String :=
  { key := "name",
    colType := { Func := some (fun val _ _ _ => some val), MemberFunc := none,
                 FromMember := true } }

/-- A column without any function. -/
def emptyColumn : valueBuilder Unit (Match Unit) String :=
  { key := "ref",
    colType := { Func := none, MemberFunc := none, FromMember := false } }

/-- A row schema of four columns. -/
def exampleSchema : rowBuilder Unit (Match Unit) String :=
  { columns := [nameColumn, roleColumn, emptyColumn, memberNameColumn] }

/-- A Match of the table `ways` for the tag `building=yes`, as handed to the
column functions. -/
def exampleMatch : Match Unit :=
  { Key := "building", Value := "yes", Table := { Name := "ways", Kind := "way" },
    builder := some () }

/-- A matcher over `wayIndex` whose table `ways` has the row schema
`exampleSchema`. -/
def schemaMatcher : tagMatcher (rowBuilder Unit (Match Unit) String) :=
  { mappings := wayIndex, tables := [("ways", exampleSchema)], filters := [],
    relFilters := [], areaTags := [], linearTags := [],
    matchLines := false, matchAreas := false }

/-- An index with a tie: `amenity` and `shop` map to `points` with the same
order 0, and so does the wildcard key. -/
def tieIndex : TagTableMapping :=
  [("__any__", [("__any__", [{ Name := "points", Kind := "point", order := 0 }])]),
   ("amenity", [("__any__", [{ Name := "points", Kind := "point", order := 0 }])]),
   ("shop", [("__any__", [{ Name := "points", Kind := "point", order := 0 }])])]

/-- A point matcher over `tieIndex`, without filters. -/
def tieMatcher : tagMatcher Unit :=
  { mappings := tieIndex, tables := [("points", ())], filters := [], relFilters := [],
    areaTags := [], linearTags := [], matchLines := false, matchAreas := false }

/-- An index with a tie that a third key beats: `amenity` and `shop` map to
`points` with the same order 1, and `tourism` maps to it with order 0. -/
def beatenTieIndex : TagTableMapping :=
  [("amenity", [("__any__", [{ Name := "points", Kind := "point", order := 1 }])]),
   ("shop", [("__any__", [{ Name := "points", Kind := "point", order := 1 }])]),
   ("tourism", [("__any__", [{ Name := "points", Kind := "point", order := 0 }])])]

/-- A point matcher over `beatenTieIndex`, without filters. -/
def beatenTieMatcher : tagMatcher Unit :=
  { mappings := beatenTieIndex, tables := [("points", ())], filters := [], relFilters := [],
    areaTags := [], linearTags := [], matchLines := false, matchAreas := false }

/-- An index with two tables: `amenity` maps to `amenities` and `shop` to
`shops`. -/
def twoTableIndex : TagTableMapping :=
  [("amenity", [("__any__", [{ Name := "amenities", Kind := "point", order := 0 }])]),
   ("shop", [("__any__", [{ Name := "shops", Kind := "point", order := 1 }])])]

/-- A point matcher over `twoTableIndex`, without filters. -/
def twoTableMatcher : tagMatcher Unit :=
  { mappings := twoTableIndex, tables := [("amenities", ()), ("shops", ())], filters := [],
    relFilters := [], areaTags := [], linearTags := [],
    matchLines := false, matchAreas := false }

/-! ## Iteration orders -/

/-- The candidate stored for a table once `c` has been offered while `stored`
was stored: the stored one if its order is strictly smaller, else `c`. -/
def pick {β : Type} (stored : Option (orderedMatch β)) (c : orderedMatch β) :
    orderedMatch β :=
  match stored with
  | some other => if other.order < c.order then other else c
  | none => c

/-- The candidate stored for a table once the candidates `l` of that table
have been offered in turn. -/
def bestOf {β : Type} (stored : Option (orderedMatch β)) (l : List (orderedMatch β)) :
    Option (orderedMatch β) :=
  l.foldl (fun acc c => some (pick acc c)) stored

/-- The second loop of `tagMatcher.match`, `for t, match := range tables`,
run over the bindings of the map in the order `tables`. -/
def collect {β : Type} (tm : tagMatcher β) (tags : Tags) (closed relation : Bool)
    (tables : List (DestTable × orderedMatch β)) : List (Match β) :=
  tables.foldl
    (fun found p =>
      if !filteredOut tm tags closed relation p.1 p.2 then found ++ [p.2.toMatch]
      else found)
    []

/-- The list `result` is what `tagMatcher.match` returns for some iteration
order of its four `range` loops: `iter` is the order of the tags, `tables` the
order of the candidate map, `linear` and `area` the orders of the linear-tag
and area-tag sets. The filters read the tag map itself. -/
def Outcome {β : Type} (tm : tagMatcher β) (tags : Tags) (closed relation : Bool)
    (result : List (Match β)) : Prop :=
  ∃ (iter : Tags) (tables : List (DestTable × orderedMatch β)) (linear area : List String),
    iter.Perm tags ∧ tables.Perm (candidates tm iter) ∧
    linear.Perm tm.linearTags ∧ area.Perm tm.areaTags ∧
    result = collect { tm with linearTags := linear, areaTags := area } tags closed
      relation tables

/-! ## Association lists -/

theorem mapGet_mapSet_self {κ ν : Type} [DecidableEq κ] (l : List (κ × ν)) (k : κ) (v : ν) :
    mapGet (mapSet l k v) k = some v := by
  induction l with
  | nil => simp [mapSet, mapGet]
  | cons p rest ih =>
    obtain ⟨k', v'⟩ := p
    by_cases h : k' = k
    · simp [mapSet, mapGet, h]
    · simp [mapSet, mapGet, h, ih]

theorem mapGet_mapSet_ne {κ ν : Type} [DecidableEq κ] (l : List (κ × ν)) (k k₂ : κ) (v : ν)
    (hne : k₂ ≠ k) : mapGet (mapSet l k v) k₂ = mapGet l k₂ := by
  induction l with
  | nil =>
    have : ¬ k = k₂ := fun h => hne h.symm
    simp [mapSet, mapGet, this]
  | cons p rest ih =>
    obtain ⟨k', v'⟩ := p
    by_cases h : k' = k
    · subst h
      have : ¬ k' = k₂ := fun h => hne h.symm
      simp [mapSet, mapGet, this]
    · by_cases h2 : k' = k₂
      · subst h2
        simp [mapSet, mapGet, h]
      · simp [mapSet, mapGet, h, h2, ih]

theorem mem_keys_mapSet {κ ν : Type} [DecidableEq κ] (l : List (κ × ν)) (k k₂ : κ) (v : ν) :
    k₂ ∈ (mapSet l k v).map Prod.fst ↔ k₂ = k ∨ k₂ ∈ l.map Prod.fst := by
  induction l with
  | nil => simp [mapSet]
  | cons p rest ih =>
    obtain ⟨k', v'⟩ := p
    by_cases h : k' = k
    · subst h
      simp [mapSet]
    · simp only [mapSet, h, if_false, List.map_cons, List.mem_cons, ih]
      tauto

theorem nodup_keys_mapSet {κ ν : Type} [DecidableEq κ] (l : List (κ × ν)) (k : κ) (v : ν)
    (hl : (l.map Prod.fst).Nodup) : ((mapSet l k v).map Prod.fst).Nodup := by
  induction l with
  | nil => simp [mapSet]
  | cons p rest ih =>
    obtain ⟨k', v'⟩ := p
    simp only [List.map_cons, List.nodup_cons] at hl
    by_cases h : k' = k
    · subst h
      simp only [mapSet, if_true, List.map_cons, List.nodup_cons]
      exact hl
    · simp only [mapSet, h, if_false, List.map_cons, List.nodup_cons]
      refine ⟨?_, ih hl.2⟩
      intro hmem
      rcases (mem_keys_mapSet rest k k' v).1 hmem with h' | h'
      · exact h h'
      · exact hl.1 h'

theorem mapGet_of_mem {κ ν : Type} [DecidableEq κ] (l : List (κ × ν)) (k : κ) (v : ν)
    (hl : (l.map Prod.fst).Nodup) (hmem : (k, v) ∈ l) : mapGet l k = some v := by
  induction l with
  | nil => simp at hmem
  | cons p rest ih =>
    obtain ⟨k', v'⟩ := p
    simp only [List.map_cons, List.nodup_cons] at hl
    rcases List.mem_cons.1 hmem with h | h
    · cases h
      simp [mapGet]
    · have hne : ¬ k' = k := by
        intro he
        subst he
        exact hl.1 (List.mem_map.2 ⟨(k', v), h, rfl⟩)
      simp [mapGet, hne, ih hl.2 h]

theorem mem_of_mapGet {κ ν : Type} [DecidableEq κ] (l : List (κ × ν)) (k : κ) (v : ν)
    (h : mapGet l k = some v) : (k, v) ∈ l := by
  induction l with
  | nil => simp [mapGet] at h
  | cons p rest ih =>
    obtain ⟨k', v'⟩ := p
    by_cases he : k' = k
    · subst he
      simp [mapGet] at h
      subst h
      simp
    · simp [mapGet, he] at h
      exact List.mem_cons_of_mem _ (ih h)

theorem mapGet_perm {κ ν : Type} [DecidableEq κ] {l₁ l₂ : List (κ × ν)}
    (hp : l₁.Perm l₂) (hl : (l₁.map Prod.fst).Nodup) (k : κ) :
    mapGet l₁ k = mapGet l₂ k := by
  have hl₂ : (l₂.map Prod.fst).Nodup := (hp.map Prod.fst).nodup_iff.1 hl
  cases h : mapGet l₁ k with
  | some v =>
    exact (mapGet_of_mem l₂ k v hl₂ (hp.subset (mem_of_mapGet l₁ k v h))).symm
  | none =>
    cases h₂ : mapGet l₂ k with
    | none => rfl
    | some v =>
      have := mapGet_of_mem l₁ k v hl (hp.symm.subset (mem_of_mapGet l₂ k v h₂))
      rw [h] at this
      cases this

/-! ## The candidate map is a fold of `store` over `candidateSeq` -/

theorem addTable_eq_store {β : Type} (tm : tagMatcher β) (k v : String)
    (tables : List (DestTable × orderedMatch β)) (t : orderedDestTable) :
    addTable tm k v tables t = store tables (mkCandidate tm k v t) := rfl

theorem addTables_eq_foldl {β : Type} (tm : tagMatcher β)
    (tables : List (DestTable × orderedMatch β)) (k v : String)
    (tbls : List orderedDestTable) :
    addTables tm tables k v tbls = (tbls.map (mkCandidate tm k v)).foldl store tables := by
  unfold addTables
  rw [List.foldl_map]
  rfl

theorem addTag_eq_foldl {β : Type} (tm : tagMatcher β)
    (tables : List (DestTable × orderedMatch β)) (kv : String × String) :
    addTag tm tables kv =
      ((tagEntries tm kv.1 kv.2).map (mkCandidate tm kv.1 kv.2)).foldl store tables := by
  unfold addTag tagEntries
  cases hk : mapGet tm.mappings kv.1 with
  | none => simp
  | some values =>
    cases ha : mapGet values "__any__" <;> cases hv : mapGet values kv.2 <;>
      simp [addTables_eq_foldl, List.foldl_append, ha, hv]

theorem foldl_addTag {β : Type} (tm : tagMatcher β) (tags : Tags)
    (tables : List (DestTable × orderedMatch β)) :
    tags.foldl (addTag tm) tables =
      (tags.flatMap
        (fun kv => (tagEntries tm kv.1 kv.2).map (mkCandidate tm kv.1 kv.2))).foldl
        store tables := by
  induction tags generalizing tables with
  | nil => rfl
  | cons kv rest ih =>
    simp only [List.foldl_cons, List.flatMap_cons, List.foldl_append]
    rw [ih, addTag_eq_foldl]

theorem candidates_eq_foldl {β : Type} (tm : tagMatcher β) (tags : Tags) :
    candidates tm tags = (candidateSeq tm tags).foldl store [] := by
  unfold candidates candidateSeq wildcardEntries
  simp only [List.foldl_append, foldl_addTag]
  cases mapGet tm.mappings "__any__" with
  | none => rfl
  | some values => simp [addTables_eq_foldl]

theorem resolved_nil {β : Type} : Resolved ([] : List (orderedMatch β)) [] := by
  refine ⟨by simp, ?_, by simp⟩
  intro t om h
  simp [mapGet] at h

theorem resolved_store {β : Type} (seq : List (orderedMatch β))
    (tables : List (DestTable × orderedMatch β)) (c : orderedMatch β)
    (h : Resolved seq tables) : Resolved (seq ++ [c]) (store tables c) := by
  obtain ⟨hnd, hget, hall⟩ := h
  refine ⟨nodup_keys_mapSet _ _ _ hnd, ?_, ?_⟩
  · intro t om hom
    by_cases ht : t = c.Table
    · subst ht
      unfold store at hom
      rw [mapGet_mapSet_self] at hom
      cases hold : mapGet tables c.Table with
      | none =>
        rw [hold] at hom
        simp only [Option.some.injEq] at hom
        subst hom
        refine ⟨by simp, rfl, ?_⟩
        intro c' hc' hT
        rcases List.mem_append.1 hc' with h1 | h1
        · obtain ⟨om', hom'⟩ := hall c' h1
          rw [hT, hold] at hom'
          cases hom'
        · simp only [List.mem_singleton] at h1
          subst h1
          exact le_refl _
      | some other =>
        rw [hold] at hom
        obtain ⟨hmem, hT, hmin⟩ := hget _ _ hold
        by_cases hlt : other.order < c.order
        · simp only [hlt, if_true, Option.some.injEq] at hom
          subst hom
          refine ⟨List.mem_append_left _ hmem, hT, ?_⟩
          intro c' hc' hT'
          rcases List.mem_append.1 hc' with h1 | h1
          · exact hmin c' h1 hT'
          · simp only [List.mem_singleton] at h1
            subst h1
            exact le_of_lt hlt
        · simp only [hlt, if_false, Option.some.injEq] at hom
          subst hom
          refine ⟨by simp, rfl, ?_⟩
          intro c' hc' hT'
          rcases List.mem_append.1 hc' with h1 | h1
          · exact le_trans (not_lt.1 hlt) (hmin c' h1 hT')
          · simp only [List.mem_singleton] at h1
            subst h1
            exact le_refl _
    · unfold store at hom
      rw [mapGet_mapSet_ne _ _ _ _ ht] at hom
      obtain ⟨hmem, hT, hmin⟩ := hget _ _ hom
      refine ⟨List.mem_append_left _ hmem, hT, ?_⟩
      intro c' hc' hT'
      rcases List.mem_append.1 hc' with h1 | h1
      · exact hmin c' h1 hT'
      · simp only [List.mem_singleton] at h1
        subst h1
        exact absurd hT'.symm ht
  · intro c' hc'
    by_cases ht : c'.Table = c.Table
    · rw [ht]
      unfold store
      rw [mapGet_mapSet_self]
      exact ⟨_, rfl⟩
    · unfold store
      rw [mapGet_mapSet_ne _ _ _ _ ht]
      rcases List.mem_append.1 hc' with h1 | h1
      · exact hall c' h1
      · simp only [List.mem_singleton] at h1
        subst h1
        exact absurd rfl ht

theorem resolved_foldl {β : Type} (seq : List (orderedMatch β)) :
    Resolved seq (seq.foldl store []) := by
  induction seq using List.reverseRecOn with
  | nil => exact resolved_nil
  | append_singleton l c ih =>
    rw [List.foldl_append]
    exact resolved_store l _ c ih

theorem resolved_candidates {β : Type} (tm : tagMatcher β) (tags : Tags) :
    Resolved (candidateSeq tm tags) (candidates tm tags) := by
  rw [candidates_eq_foldl]
  exact resolved_foldl _

theorem mem_candidateSeq {β : Type} (tm : tagMatcher β) (tags : Tags) (c : orderedMatch β) :
    c ∈ candidateSeq tm tags ↔
      ∃ s ∈ sources tags, ∃ e ∈ s.entries tm, c = mkCandidate tm s.Key s.Value e := by
  unfold candidateSeq sources
  simp only [List.mem_append, List.mem_map, List.mem_flatMap, List.mem_cons]
  constructor
  · rintro (⟨e, he, rfl⟩ | ⟨kv, hkv, e, he, rfl⟩)
    · exact ⟨Source.wildcard, Or.inl rfl, e, he, rfl⟩
    · exact ⟨Source.tag kv.1 kv.2, Or.inr ⟨kv, hkv, rfl⟩, e, he, rfl⟩
  · rintro ⟨s, hs | ⟨kv, hkv, rfl⟩, e, he, rfl⟩
    · subst hs
      exact Or.inl ⟨e, he, rfl⟩
    · exact Or.inr ⟨kv, hkv, e, he, rfl⟩

/-! ## The result of `match` is the candidate map, filtered -/

theorem filterLoop_false (tags : Tags) (key : String) (closed : Bool)
    (filters : List ElementFilter) :
    filterLoop tags key closed filters false =
      !filters.all (fun filter => filter tags key closed) := by
  induction filters with
  | nil => rfl
  | cons f rest ih =>
    cases hf : f tags key closed <;> simp [filterLoop, hf, ih]

theorem filteredOut_eq {β : Type} (tm : tagMatcher β) (tags : Tags) (closed relation : Bool)
    (t : DestTable) (m : orderedMatch β) :
    filteredOut tm tags closed relation t m =
      !(!geometryFilteredOut tm tags closed relation &&
        chainPasses tm.filters t.Name tags m.Key closed &&
        (!relation || chainPasses tm.relFilters t.Name tags m.Key closed)) := by
  unfold filteredOut chainPasses
  cases hg : geometryFilteredOut tm tags closed relation with
  | true =>
    cases hf : mapGet tm.filters t.Name <;> cases relation <;> simp
  | false =>
    cases hf : mapGet tm.filters t.Name with
    | none =>
      cases hr : mapGet tm.relFilters t.Name <;> cases relation <;>
        simp [filterLoop_false]
    | some fs =>
      cases hall : fs.all (fun filter => filter tags m.Key closed) <;>
        cases hr : mapGet tm.relFilters t.Name <;> cases relation <;>
        simp [filterLoop_false, hall]

theorem foldl_append_if {α γ : Type} (p : α → Bool) (f : α → γ) (l : List α) (acc : List γ) :
    l.foldl (fun found x => if p x then found ++ [f x] else found) acc =
      acc ++ (l.filter p).map f := by
  induction l generalizing acc with
  | nil => simp
  | cons x rest ih =>
    cases hp : p x <;> simp [List.foldl_cons, hp, ih, List.filter_cons]

theorem match_eq_filter {β : Type} (tm : tagMatcher β) (tags : Tags) (closed relation : Bool) :
    tm.match_ tags closed relation =
      ((candidates tm tags).filter
        (fun p => !geometryFilteredOut tm tags closed relation &&
          chainPasses tm.filters p.1.Name tags p.2.Key closed &&
          (!relation || chainPasses tm.relFilters p.1.Name tags p.2.Key closed))).map
        (fun p => p.2.toMatch) := by
  unfold tagMatcher.match_
  have h := foldl_append_if
    (fun p : DestTable × orderedMatch β => !filteredOut tm tags closed relation p.1 p.2)
    (fun p => p.2.toMatch) (candidates tm tags) []
  simp only [List.nil_append] at h
  rw [h]
  congr 1
  apply List.filter_congr
  intro p _
  rw [filteredOut_eq]
  simp

theorem match_excluded {β : Type} (tm : tagMatcher β) (tags : Tags) (closed relation : Bool)
    (h : geometryFilteredOut tm tags closed relation = true) :
    tm.match_ tags closed relation = [] := by
  rw [match_eq_filter]
  simp [h]

theorem match_not_excluded {β : Type} (tm : tagMatcher β) (tags : Tags) (closed : Bool)
    (h : geometryFilteredOut tm tags closed false = false) :
    tm.match_ tags closed false = chainMatches tm tags closed := by
  rw [match_eq_filter]
  unfold chainMatches
  simp [h]

theorem match_relation {β : Type} (tm : tagMatcher β) (tags : Tags) (closed : Bool) :
    tm.match_ tags closed true =
      ((candidates tm tags).filter
        (fun p => chainPasses tm.filters p.1.Name tags p.2.Key closed &&
          chainPasses tm.relFilters p.1.Name tags p.2.Key closed)).map
        (fun p => p.2.toMatch) := by
  rw [match_eq_filter]
  simp [geometryFilteredOut]

/-! ## Line / area disambiguation -/

theorem overrideLoop_eq (tags : Tags) (newValue : Bool) (keys : List String) (b : Bool) :
    overrideLoop tags newValue keys b =
      if keys.any (fun k => tags.has k) then newValue else b := by
  induction keys with
  | nil => rfl
  | cons k rest ih =>
    cases hk : tags.has k <;> simp [overrideLoop, hk, ih]

theorem any_false_of_forall (tags : Tags) (keys : List String)
    (h : ∀ k ∈ keys, tags.has k = false) : keys.any (fun k => tags.has k) = false := by
  rw [List.any_eq_false]
  intro k hk
  simp [h k hk]

theorem any_true_of_exists (tags : Tags) (keys : List String)
    (h : ∃ k ∈ keys, tags.has k = true) : keys.any (fun k => tags.has k) = true := by
  rw [List.any_eq_true]
  exact h

theorem geometry_closed {β : Type} (tm : tagMatcher β) (tags : Tags)
    (h : (tm.matchLines || tm.matchAreas) = true) :
    geometryFilteredOut tm tags true false =
      if tm.areaTags.any (fun k => tags.has k) then !tm.matchAreas
      else if tags.get "area" == "yes" then tm.matchAreas
      else if tm.linearTags.any (fun k => tags.has k) then tm.matchAreas
      else (tm.matchAreas && tags.get "area" == "no") ||
        (!tm.matchAreas && tags.get "area" != "no") := by
  unfold geometryFilteredOut
  simp only [overrideLoop_eq, h]
  simp

theorem geometry_open {β : Type} (tm : tagMatcher β) (tags : Tags)
    (h : (tm.matchLines || tm.matchAreas) = true) :
    geometryFilteredOut tm tags false false = !tm.matchLines := by
  unfold geometryFilteredOut
  simp only [h]
  cases tm.matchLines <;> simp

theorem geometry_relation {β : Type} (tm : tagMatcher β) (tags : Tags) (closed : Bool) :
    geometryFilteredOut tm tags closed true = false := by
  simp [geometryFilteredOut]

theorem geometry_point {β : Type} (tm : tagMatcher β) (tags : Tags) (closed relation : Bool)
    (hl : tm.matchLines = false) (ha : tm.matchAreas = false) :
    geometryFilteredOut tm tags closed relation = false := by
  simp [geometryFilteredOut, hl, ha]

/-! ## The candidate map -/

theorem candidates_table {β : Type} (tm : tagMatcher β) (tags : Tags)
    (p : DestTable × orderedMatch β) (hp : p ∈ candidates tm tags) : p.2.Table = p.1 := by
  obtain ⟨hnd, hget, _⟩ := resolved_candidates tm tags
  exact (hget p.1 p.2 (mapGet_of_mem _ _ _ hnd hp)).2.1

theorem candidates_tables_nodup {β : Type} (tm : tagMatcher β) (tags : Tags) :
    ((candidates tm tags).map (fun p => p.2.Table)).Nodup := by
  have h : (candidates tm tags).map (fun p => p.2.Table) =
      (candidates tm tags).map Prod.fst := by
    apply List.map_congr_left
    intro p hp
    exact candidates_table tm tags p hp
  rw [h]
  exact (resolved_candidates tm tags).1

theorem candidates_congr {β : Type} (tm tm' : tagMatcher β) (tags : Tags)
    (hm : tm.mappings = tm'.mappings) (ht : tm.tables = tm'.tables) :
    candidates tm tags = candidates tm' tags := by
  have hk : ∀ k v, mkCandidate tm k v = mkCandidate tm' k v := by
    intro k v
    funext t
    simp [mkCandidate, ht]
  rw [candidates_eq_foldl, candidates_eq_foldl]
  unfold candidateSeq wildcardEntries tagEntries
  simp only [hm, hk]

theorem chainPasses_iff (chains : tableElementFilters) (name : String) (tags : Tags)
    (key : String) (closed : Bool) :
    chainPasses chains name tags key closed = true ↔
      ∀ filter ∈ (mapGet chains name).getD [], filter tags key closed = true := by
  unfold chainPasses
  cases mapGet chains name with
  | none => simp
  | some filters => simp [List.all_eq_true]

theorem match_mem_iff {β : Type} (tm : tagMatcher β) (tags : Tags) (closed relation : Bool)
    (T : DestTable) (om : orderedMatch β)
    (hcand : mapGet (candidates tm tags) T = some om) :
    om.toMatch ∈ tm.match_ tags closed relation ↔
      geometryFilteredOut tm tags closed relation = false ∧
      chainPasses tm.filters T.Name tags om.Key closed = true ∧
      (relation = true → chainPasses tm.relFilters T.Name tags om.Key closed = true) := by
  rw [match_eq_filter]
  simp only [List.mem_map, List.mem_filter]
  constructor
  · rintro ⟨p, ⟨hp, hkept⟩, heq⟩
    have hT : p.1 = T := by
      rw [← candidates_table tm tags p hp]
      have h1 : p.2.Table = om.Table := congrArg Match.Table heq
      rw [h1]
      exact candidates_table tm tags (T, om) (mem_of_mapGet _ _ _ hcand)
    have hpo : p.2 = om := by
      have h2 := mapGet_of_mem _ p.1 p.2 (resolved_candidates tm tags).1 hp
      rw [hT, hcand] at h2
      exact (Option.some.inj h2).symm
    rw [hT, hpo] at hkept
    cases relation <;> simpa [and_assoc] using hkept
  · rintro ⟨hg, hf, hr⟩
    refine ⟨(T, om), ⟨mem_of_mapGet _ _ _ hcand, ?_⟩, rfl⟩
    cases relation <;> simp_all

theorem match_mem_table {β : Type} (tm : tagMatcher β) (tags : Tags) (closed relation : Bool)
    (m : Match β) (hm : m ∈ tm.match_ tags closed relation) :
    ∃ om, mapGet (candidates tm tags) m.Table = some om ∧ m = om.toMatch := by
  rw [match_eq_filter] at hm
  simp only [List.mem_map, List.mem_filter] at hm
  obtain ⟨p, ⟨hp, _⟩, heq⟩ := hm
  refine ⟨p.2, ?_, heq.symm⟩
  have h2 := mapGet_of_mem _ p.1 p.2 (resolved_candidates tm tags).1 hp
  rw [← heq]
  have : p.2.toMatch.Table = p.1 := candidates_table tm tags p hp
  rw [this]
  exact h2

theorem sources_perm {tags tags' : Tags} (hp : tags'.Perm tags) (s : Source) :
    s ∈ sources tags' ↔ s ∈ sources tags := by
  unfold sources
  simp only [List.mem_cons, List.mem_map]
  constructor
  · rintro (h | ⟨kv, hkv, h⟩)
    · exact Or.inl h
    · exact Or.inr ⟨kv, hp.subset hkv, h⟩
  · rintro (h | ⟨kv, hkv, h⟩)
    · exact Or.inl h
    · exact Or.inr ⟨kv, hp.symm.subset hkv, h⟩

theorem source_same_key {tags : Tags} (hkeys : (tags.map Prod.fst).Nodup) (s s' : Source)
    (hs : s ∈ sources tags) (hs' : s' ∈ sources tags) (hsame : s.otherKey s' = false) :
    s'.Key = s.Key ∧ s'.Value = s.Value := by
  cases s with
  | wildcard =>
    cases s' with
    | wildcard => exact ⟨rfl, rfl⟩
    | tag k' v' => simp [Source.otherKey] at hsame
  | tag k v =>
    cases s' with
    | wildcard => simp [Source.otherKey] at hsame
    | tag k' v' =>
      simp [Source.otherKey] at hsame
      subst hsame
      unfold sources at hs hs'
      simp only [List.mem_cons, List.mem_map, Source.tag.injEq, reduceCtorEq,
        false_or] at hs hs'
      obtain ⟨kv, hkv, h1, h2⟩ := hs
      obtain ⟨kv', hkv', h1', h2'⟩ := hs'
      have e1 := mapGet_of_mem tags kv.1 kv.2 hkeys hkv
      have e2 := mapGet_of_mem tags kv'.1 kv'.2 hkeys hkv'
      rw [h1] at e1
      rw [h1', e1] at e2
      have : kv.2 = kv'.2 := Option.some.inj e2
      exact ⟨rfl, by simp [Source.Value, ← h2, ← h2', this]⟩

/-- The candidate stored for a table has the least order of all candidates of
that table, and a source of the feature produced it. -/
theorem candidates_winner {β : Type} (tm : tagMatcher β) (tags : Tags)
    (s : Source) (e : orderedDestTable) (hs : s ∈ sources tags) (he : e ∈ s.entries tm) :
    ∃ om, mapGet (candidates tm tags) e.toDestTable = some om ∧
      ∃ s' ∈ sources tags, ∃ e' ∈ s'.entries tm,
        e'.toDestTable = e.toDestTable ∧ e'.order ≤ e.order ∧
        om = mkCandidate tm s'.Key s'.Value e' := by
  obtain ⟨_, hget, hall⟩ := resolved_candidates tm tags
  have hc : mkCandidate tm s.Key s.Value e ∈ candidateSeq tm tags :=
    (mem_candidateSeq tm tags _).2 ⟨s, hs, e, he, rfl⟩
  obtain ⟨om, hom⟩ := hall _ hc
  have hom' : mapGet (candidates tm tags) e.toDestTable = some om := hom
  obtain ⟨hmem, hT, hmin⟩ := hget _ _ hom'
  obtain ⟨s', hs', e', he', rfl⟩ := (mem_candidateSeq tm tags _).1 hmem
  exact ⟨_, hom', s', hs', e', he', hT, hmin _ hc rfl, rfl⟩

/-! ## Claims -/

/-- C2: the list returned by `tagMatcher.match`, hence by `MatchNode`,
`MatchWay` and `MatchRelation`, never holds two Matches with the same
destination table. -/
theorem match_tables_nodup {β : Type} (tm : tagMatcher β) (tags : Tags)
    (closed relation : Bool) :
    ((tm.match_ tags closed relation).map (fun m => m.Table)).Nodup ∧
    (∀ node : Node, ((tm.MatchNode node).map (fun m => m.Table)).Nodup) ∧
    (∀ way : Way, ((tm.MatchWay way).map (fun m => m.Table)).Nodup) ∧
    (∀ rel : Relation, ((tm.MatchRelation rel).map (fun m => m.Table)).Nodup) := by
  have key : ∀ (tags : Tags) (closed relation : Bool),
      ((tm.match_ tags closed relation).map (fun m => m.Table)).Nodup := by
    intro tags closed relation
    rw [match_eq_filter, List.map_map]
    have hsub := List.filter_sublist (l := candidates tm tags)
      (p := fun p => !geometryFilteredOut tm tags closed relation &&
        chainPasses tm.filters p.1.Name tags p.2.Key closed &&
        (!relation || chainPasses tm.relFilters p.1.Name tags p.2.Key closed))
    exact (candidates_tables_nodup tm tags).sublist
      (hsub.map (fun p => p.2.Table))
  exact ⟨key tags closed relation, fun node => key _ _ _, fun way => key _ _ _,
    fun rel => key _ _ _⟩

/-- C3: what the code does on a closed way tagged `area=yes`. With `highway`
a linear tag, the closed way `{highway: pedestrian, area: yes}` is dropped by
the area-capable matcher and returned by the line-capable matcher, and so is
the closed way `{area: yes}`: the step `if tags["area"] == "yes"` assigns
`tm.matchAreas` to `filteredOut`. -/
theorem area_yes_closed_way_evaluated :
    geometryFilteredOut areaMatcher [("highway", "pedestrian"), ("area", "yes")] true false
      = true ∧
    areaMatcher.MatchWay ⟨[("highway", "pedestrian"), ("area", "yes")], true⟩ = [] ∧
    lineMatcher.MatchWay ⟨[("highway", "pedestrian"), ("area", "yes")], true⟩ =
      [{ Key := "area", Value := "yes", Table := { Name := "ways", Kind := "way" },
         builder := some () }] ∧
    areaMatcher.MatchWay ⟨[("area", "yes")], true⟩ = [] ∧
    lineMatcher.MatchWay ⟨[("area", "yes")], true⟩ =
      [{ Key := "area", Value := "yes", Table := { Name := "ways", Kind := "way" },
         builder := some () }] := by
  decide

/-- C4: default policy for closed ways. On a closed way carrying no configured
linear-tag key and no configured area-tag key, and whose `area` tag is not
`yes`, the geometry decision of an area-capable matcher is "excluded" exactly
when `area=no` is present and that of a line-capable matcher exactly when it is
absent; an excluded way yields no Match and an included way yields the Matches
of the candidate tables whose filter chain passes. -/
theorem closed_way_default_policy {β : Type} (tm : tagMatcher β) (way : Way)
    (hclosed : way.IsClosed = true)
    (hlinear : ∀ k ∈ tm.linearTags, way.Tags.has k = false)
    (harea : ∀ k ∈ tm.areaTags, way.Tags.has k = false)
    (hyes : way.Tags.get "area" ≠ "yes") :
    (AreaCapable tm →
      (geometryFilteredOut tm way.Tags way.IsClosed false = true ↔
        way.Tags.get "area" = "no") ∧
      (way.Tags.get "area" = "no" → tm.MatchWay way = []) ∧
      (way.Tags.get "area" ≠ "no" →
        tm.MatchWay way = chainMatches tm way.Tags way.IsClosed)) ∧
    (LineCapable tm →
      (geometryFilteredOut tm way.Tags way.IsClosed false = true ↔
        way.Tags.get "area" ≠ "no") ∧
      (way.Tags.get "area" ≠ "no" → tm.MatchWay way = []) ∧
      (way.Tags.get "area" = "no" →
        tm.MatchWay way = chainMatches tm way.Tags way.IsClosed)) := by
  have hl := any_false_of_forall way.Tags tm.linearTags hlinear
  have ha := any_false_of_forall way.Tags tm.areaTags harea
  constructor
  · rintro ⟨hA, hL⟩
    have hg : geometryFilteredOut tm way.Tags way.IsClosed false =
        (way.Tags.get "area" == "no") := by
      rw [hclosed, geometry_closed tm way.Tags (by simp [hA])]
      simp [hl, ha, hyes, hA]
    refine ⟨by simp [hg], ?_, ?_⟩
    · intro hno
      exact match_excluded tm _ _ _ (by simp [hg, hno])
    · intro hno
      exact match_not_excluded tm _ _ (by simp [hg, hno])
  · rintro ⟨hL, hA⟩
    have hg : geometryFilteredOut tm way.Tags way.IsClosed false =
        (way.Tags.get "area" != "no") := by
      rw [hclosed, geometry_closed tm way.Tags (by simp [hL])]
      simp [hl, ha, hyes, hA]
    refine ⟨by simp [hg], ?_, ?_⟩
    · intro hno
      exact match_excluded tm _ _ _ (by simp [hg, hno])
    · intro hno
      exact match_not_excluded tm _ _ (by simp [hg, hno])

/-- C4, at the closed ways `{area: no}` and `{building: yes}`: the first is
returned by the line-capable matcher and dropped by the area-capable one, the
second is returned by the area-capable matcher and dropped by the line-capable
one. -/
theorem closed_way_default_policy_witness :
    lineMatcher.MatchWay ⟨[("area", "no")], true⟩ =
      chainMatches lineMatcher [("area", "no")] true ∧
    chainMatches lineMatcher [("area", "no")] true =
      [{ Key := "area", Value := "no", Table := { Name := "ways", Kind := "way" },
         builder := some () }] ∧
    areaMatcher.MatchWay ⟨[("area", "no")], true⟩ = [] ∧
    areaMatcher.MatchWay ⟨[("building", "yes")], true⟩ =
      chainMatches areaMatcher [("building", "yes")] true ∧
    chainMatches areaMatcher [("building", "yes")] true =
      [{ Key := "building", Value := "yes", Table := { Name := "ways", Kind := "way" },
         builder := some () }] ∧
    lineMatcher.MatchWay ⟨[("building", "yes")], true⟩ = [] :=
  ⟨((closed_way_default_policy lineMatcher ⟨[("area", "no")], true⟩ rfl
      (by decide) (by decide) (by decide)).2 ⟨rfl, rfl⟩).2.2 (by decide),
   by decide,
   ((closed_way_default_policy areaMatcher ⟨[("area", "no")], true⟩ rfl
      (by decide) (by decide) (by decide)).1 ⟨rfl, rfl⟩).2.1 (by decide),
   ((closed_way_default_policy areaMatcher ⟨[("building", "yes")], true⟩ rfl
      (by decide) (by decide) (by decide)).1 ⟨rfl, rfl⟩).2.2 (by decide),
   by decide,
   ((closed_way_default_policy lineMatcher ⟨[("building", "yes")], true⟩ rfl
      (by decide) (by decide) (by decide)).2 ⟨rfl, rfl⟩).2.1 (by decide)⟩

/-- C5: open ways are always lines. On an open way, whatever its tags, an
area-capable matcher returns the empty list and a line-capable matcher returns
the Matches of exactly the candidate tables whose filter chain passes. -/
theorem open_way_is_line {β : Type} (tm : tagMatcher β) (way : Way)
    (hopen : way.IsClosed = false) :
    (AreaCapable tm → tm.MatchWay way = []) ∧
    (LineCapable tm → tm.MatchWay way = chainMatches tm way.Tags way.IsClosed) := by
  constructor
  · rintro ⟨hA, hL⟩
    refine match_excluded tm _ _ _ ?_
    rw [hopen, geometry_open tm way.Tags (by simp [hA])]
    simp [hL]
  · rintro ⟨hL, hA⟩
    refine match_not_excluded tm _ _ ?_
    rw [hopen, geometry_open tm way.Tags (by simp [hL])]
    simp [hL]

/-- C5, at the open way `{landuse: forest, area: yes}`, whose tags all point
to an area: it is dropped by the area-capable matcher and returned by the
line-capable one. -/
theorem open_way_is_line_witness :
    areaMatcher.MatchWay ⟨[("landuse", "forest"), ("area", "yes")], false⟩ = [] ∧
    lineMatcher.MatchWay ⟨[("landuse", "forest"), ("area", "yes")], false⟩ =
      chainMatches lineMatcher [("landuse", "forest"), ("area", "yes")] false ∧
    chainMatches lineMatcher [("landuse", "forest"), ("area", "yes")] false =
      [{ Key := "area", Value := "yes", Table := { Name := "ways", Kind := "way" },
         builder := some () }] :=
  ⟨(open_way_is_line areaMatcher ⟨[("landuse", "forest"), ("area", "yes")], false⟩ rfl).1
      ⟨rfl, rfl⟩,
   (open_way_is_line lineMatcher ⟨[("landuse", "forest"), ("area", "yes")], false⟩ rfl).2
      ⟨rfl, rfl⟩,
   by decide⟩

/-- C6: linear-tag override. A closed way carrying a configured linear-tag
key, no configured area-tag key and not `area=yes` is a line even without
`area=no`: a line-capable matcher returns the Matches of the candidate tables
whose filter chain passes, an area-capable matcher returns no Match. -/
theorem linear_tag_override {β : Type} (tm : tagMatcher β) (way : Way)
    (hclosed : way.IsClosed = true)
    (hlinear : ∃ k ∈ tm.linearTags, way.Tags.has k = true)
    (harea : ∀ k ∈ tm.areaTags, way.Tags.has k = false)
    (hyes : way.Tags.get "area" ≠ "yes") :
    (LineCapable tm → tm.MatchWay way = chainMatches tm way.Tags way.IsClosed) ∧
    (AreaCapable tm → tm.MatchWay way = []) := by
  have hl := any_true_of_exists way.Tags tm.linearTags hlinear
  have ha := any_false_of_forall way.Tags tm.areaTags harea
  constructor
  · rintro ⟨hL, hA⟩
    refine match_not_excluded tm _ _ ?_
    rw [hclosed, geometry_closed tm way.Tags (by simp [hL])]
    simp [hl, ha, hyes, hA]
  · rintro ⟨hA, hL⟩
    refine match_excluded tm _ _ _ ?_
    rw [hclosed, geometry_closed tm way.Tags (by simp [hA])]
    simp [hl, ha, hyes, hA]

/-- C6, at the closed way `{highway: pedestrian}` with `highway` a linear
tag. -/
theorem linear_tag_override_witness :
    lineMatcher.MatchWay ⟨[("highway", "pedestrian")], true⟩ =
      chainMatches lineMatcher [("highway", "pedestrian")] true ∧
    chainMatches lineMatcher [("highway", "pedestrian")] true =
      [{ Key := "highway", Value := "pedestrian",
         Table := { Name := "ways", Kind := "way" }, builder := some () }] ∧
    areaMatcher.MatchWay ⟨[("highway", "pedestrian")], true⟩ = [] :=
  ⟨(linear_tag_override lineMatcher ⟨[("highway", "pedestrian")], true⟩ rfl
      ⟨"highway", by decide, by decide⟩ (by decide) (by decide)).1 ⟨rfl, rfl⟩,
   by decide,
   (linear_tag_override areaMatcher ⟨[("highway", "pedestrian")], true⟩ rfl
      ⟨"highway", by decide, by decide⟩ (by decide) (by decide)).2 ⟨rfl, rfl⟩⟩

/-- C7: the area-tag override is last and wins. A closed way carrying a
configured area-tag key, whatever its `area` tag and its other keys, is an
area: an area-capable matcher returns the Matches of the candidate tables whose
filter chain passes, a line-capable matcher returns no Match. -/
theorem area_tag_override {β : Type} (tm : tagMatcher β) (way : Way)
    (hclosed : way.IsClosed = true)
    (harea : ∃ k ∈ tm.areaTags, way.Tags.has k = true) :
    (AreaCapable tm → tm.MatchWay way = chainMatches tm way.Tags way.IsClosed) ∧
    (LineCapable tm → tm.MatchWay way = []) := by
  have ha := any_true_of_exists way.Tags tm.areaTags harea
  constructor
  · rintro ⟨hA, hL⟩
    refine match_not_excluded tm _ _ ?_
    rw [hclosed, geometry_closed tm way.Tags (by simp [hA])]
    simp [ha, hA]
  · rintro ⟨hL, hA⟩
    refine match_excluded tm _ _ _ ?_
    rw [hclosed, geometry_closed tm way.Tags (by simp [hL])]
    simp [ha, hA]

/-- C7, at the closed way `{landuse: forest, highway: track, area: no}`, with
`landuse` an area tag and `highway` a linear tag. -/
theorem area_tag_override_witness :
    areaMatcher.MatchWay
        ⟨[("landuse", "forest"), ("highway", "track"), ("area", "no")], true⟩ =
      chainMatches areaMatcher
        [("landuse", "forest"), ("highway", "track"), ("area", "no")] true ∧
    chainMatches areaMatcher
        [("landuse", "forest"), ("highway", "track"), ("area", "no")] true =
      [{ Key := "area", Value := "no", Table := { Name := "ways", Kind := "way" },
         builder := some () }] ∧
    lineMatcher.MatchWay
        ⟨[("landuse", "forest"), ("highway", "track"), ("area", "no")], true⟩ = [] :=
  ⟨(area_tag_override areaMatcher
      ⟨[("landuse", "forest"), ("highway", "track"), ("area", "no")], true⟩ rfl
      ⟨"landuse", by decide, by decide⟩).1 ⟨rfl, rfl⟩,
   by decide,
   (area_tag_override lineMatcher
      ⟨[("landuse", "forest"), ("highway", "track"), ("area", "no")], true⟩ rfl
      ⟨"landuse", by decide, by decide⟩).2 ⟨rfl, rfl⟩⟩

/-- C8: relations are never geometry-disambiguated. Two matchers that agree
on index, row schemas, filter chains and relation filter chains return the same
Matches for every relation, whatever their `matchLines`, `matchAreas`,
`areaTags` and `linearTags`; the result is the Matches of the candidate tables
whose plain and relation filter chains pass. -/
theorem relation_not_disambiguated {β : Type} (tm tm' : tagMatcher β) (rel : Relation)
    (hm : tm.mappings = tm'.mappings) (ht : tm.tables = tm'.tables)
    (hf : tm.filters = tm'.filters) (hr : tm.relFilters = tm'.relFilters) :
    tm.MatchRelation rel = tm'.MatchRelation rel ∧
    tm.MatchRelation rel = relChainMatches tm rel.Tags := by
  have h1 : ∀ t : tagMatcher β, t.MatchRelation rel = relChainMatches t rel.Tags :=
    fun t => match_relation t rel.Tags true
  refine ⟨?_, h1 tm⟩
  rw [h1 tm, h1 tm']
  unfold relChainMatches
  rw [candidates_congr tm tm' rel.Tags hm ht, hf, hr]

/-- C8, at the relation `{area: no, highway: track}`: the area-capable and the
line-capable matcher of the same configuration return the same Match. -/
theorem relation_not_disambiguated_witness :
    areaMatcher.MatchRelation ⟨[("area", "no"), ("highway", "track")]⟩ =
      lineMatcher.MatchRelation ⟨[("area", "no"), ("highway", "track")]⟩ ∧
    areaMatcher.MatchRelation ⟨[("area", "no"), ("highway", "track")]⟩ =
      [{ Key := "area", Value := "no", Table := { Name := "ways", Kind := "way" },
         builder := some () }] :=
  ⟨(relation_not_disambiguated areaMatcher lineMatcher
      ⟨[("area", "no"), ("highway", "track")]⟩ rfl rfl rfl rfl).1,
   by decide⟩

/-- C9: filter chains. Let `om` be the candidate stored for table `T`. If the
geometry decision does not exclude the feature, the Match of `T` is returned by
`MatchNode` and `MatchWay` exactly when every predicate registered for the name
of `T` in the plain chain returns true on (tags, winning key, closed); it is
returned by `MatchRelation` exactly when every predicate of the plain chain and
every predicate of the relation chain returns true on
(tags, winning key, true). A name without a registered chain has no predicate
to pass. -/
theorem filter_chains {β : Type} (tm : tagMatcher β) (tags : Tags) (closed : Bool)
    (T : DestTable) (om : orderedMatch β)
    (hcand : mapGet (candidates tm tags) T = some om) :
    (geometryFilteredOut tm tags false false = false →
      (om.toMatch ∈ tm.MatchNode ⟨tags⟩ ↔
        ∀ filter ∈ (mapGet tm.filters T.Name).getD [], filter tags om.Key false = true)) ∧
    (geometryFilteredOut tm tags closed false = false →
      (om.toMatch ∈ tm.MatchWay ⟨tags, closed⟩ ↔
        ∀ filter ∈ (mapGet tm.filters T.Name).getD [], filter tags om.Key closed = true)) ∧
    (om.toMatch ∈ tm.MatchRelation ⟨tags⟩ ↔
      (∀ filter ∈ (mapGet tm.filters T.Name).getD [], filter tags om.Key true = true) ∧
      (∀ filter ∈ (mapGet tm.relFilters T.Name).getD [],
        filter tags om.Key true = true)) := by
  refine ⟨?_, ?_, ?_⟩
  · intro hg
    unfold tagMatcher.MatchNode
    rw [match_mem_iff tm tags false false T om hcand, ← chainPasses_iff]
    simp [hg]
  · intro hg
    unfold tagMatcher.MatchWay
    rw [match_mem_iff tm tags closed false T om hcand, ← chainPasses_iff]
    simp [hg]
  · unfold tagMatcher.MatchRelation
    rw [match_mem_iff tm tags true true T om hcand, ← chainPasses_iff, ← chainPasses_iff]
    simp [geometry_relation]

/-- C9, at the tags `{building: yes, type: multipolygon}` and then
`{building: yes}`: the candidate of the table `ways` passes the plain chain in
both cases, and the relation chain only in the first. -/
theorem filter_chains_witness :
    ({ Key := "building", Value := "yes", Table := { Name := "ways", Kind := "way" },
       builder := some () } : Match Unit) ∈
      filteredMatcher.MatchRelation ⟨[("building", "yes"), ("type", "multipolygon")]⟩ ∧
    ({ Key := "building", Value := "yes", Table := { Name := "ways", Kind := "way" },
       builder := some () } : Match Unit) ∈
      filteredMatcher.MatchWay ⟨[("building", "yes")], true⟩ ∧
    ({ Key := "building", Value := "yes", Table := { Name := "ways", Kind := "way" },
       builder := some () } : Match Unit) ∉
      filteredMatcher.MatchRelation ⟨[("building", "yes")]⟩ :=
  ⟨(filter_chains filteredMatcher [("building", "yes"), ("type", "multipolygon")] true
      { Name := "ways", Kind := "way" }
      { Key := "building", Value := "yes", Table := { Name := "ways", Kind := "way" },
        builder := some (), order := 0 } (by decide)).2.2.2
      ⟨by simp [filteredMatcher, mapGet, Tags.get],
       by simp [filteredMatcher, mapGet, Tags.get]⟩,
   ((filter_chains filteredMatcher [("building", "yes")] true
      { Name := "ways", Kind := "way" }
      { Key := "building", Value := "yes", Table := { Name := "ways", Kind := "way" },
        builder := some (), order := 0 } (by decide)).2.1 (by decide)).2
      (by simp [filteredMatcher, mapGet, Tags.get]),
   fun h => absurd
     (((filter_chains filteredMatcher [("building", "yes")] true
        { Name := "ways", Kind := "way" }
        { Key := "building", Value := "yes", Table := { Name := "ways", Kind := "way" },
          builder := some (), order := 0 } (by decide)).2.2.1 h).2
        (fun tags _ _ => tags.get "type" == "multipolygon")
        (by simp [filteredMatcher, mapGet]))
     (by simp [Tags.get, mapGet])⟩

/-- C10: wildcard-key rules apply unconditionally. Every table that the index
lists under `"__any__"` / `"__any__"` has a candidate for every tag set; its
Match is returned whenever the feature is not excluded by geometry and the
filter chains of the table pass; and when every candidate that a tag of the
feature yields for the table has an order strictly greater than the wildcard
entry's, the Match has Key `"__any__"` and Value `"__any__"`. -/
theorem wildcard_key_rules {β : Type} (tm : tagMatcher β) (tags : Tags)
    (closed relation : Bool) (e : orderedDestTable) (he : e ∈ wildcardEntries tm) :
    ∃ om, mapGet (candidates tm tags) e.toDestTable = some om ∧
      om.Table = e.toDestTable ∧
      (geometryFilteredOut tm tags closed relation = false →
        chainPasses tm.filters e.Name tags om.Key closed = true →
        (relation = true → chainPasses tm.relFilters e.Name tags om.Key closed = true) →
        om.toMatch ∈ tm.match_ tags closed relation) ∧
      ((∀ kv ∈ tags, ∀ e' ∈ tagEntries tm kv.1 kv.2,
          e'.toDestTable = e.toDestTable → e.order < e'.order) →
        om.Key = "__any__" ∧ om.Value = "__any__") := by
  obtain ⟨om, hom, s', hs', e', he', hT, hle, rfl⟩ :=
    candidates_winner tm tags Source.wildcard e (by simp [sources]) he
  refine ⟨_, hom, hT, ?_, ?_⟩
  · intro hg hf hr
    exact (match_mem_iff tm tags closed relation _ _ hom).2 ⟨hg, hf, hr⟩
  · intro hmin
    cases s' with
    | wildcard => exact ⟨rfl, rfl⟩
    | tag k v =>
      have hkv : (k, v) ∈ tags := by
        simpa [sources] using hs'
      have := hmin (k, v) hkv e' he' hT
      exact absurd (lt_of_lt_of_le this hle) (lt_irrefl _)

/-- C10, at the feature without tags and at the feature `{amenity: cafe}`:
both are returned for the table `all` with Key and Value `"__any__"`. -/
theorem wildcard_key_rules_witness :
    ({ Name := "all", Kind := "point", order := 5 } : orderedDestTable) ∈
      wildcardEntries anyMatcher ∧
    (∃ om, mapGet (candidates anyMatcher []) { Name := "all", Kind := "point" } = some om ∧
      om.Key = "__any__" ∧ om.Value = "__any__") ∧
    anyMatcher.MatchNode ⟨[]⟩ =
      [{ Key := "__any__", Value := "__any__", Table := { Name := "all", Kind := "point" },
         builder := some () }] ∧
    anyMatcher.MatchNode ⟨[("amenity", "cafe")]⟩ =
      [{ Key := "__any__", Value := "__any__", Table := { Name := "all", Kind := "point" },
         builder := some () }] :=
  ⟨by decide,
   (wildcard_key_rules anyMatcher [] false false
      { Name := "all", Kind := "point", order := 5 } (by decide)).imp
      (fun _ h => ⟨h.1, h.2.2.2 (by simp)⟩),
   by decide, by decide⟩

/-- C1: priority conflict resolution. Let the tags of a feature be iterated in
any order (`tags'` is a permutation of `tags`). If a source of the feature (the
wildcard-key entry, or one of its tags) lists an entry for table `T` whose order
is strictly smaller than the order of every entry for `T` listed by a source
with another key, then the candidate kept for `T` carries the key and the value
of that source, and so does every Match for `T` that `match` returns. -/
theorem priority_winner {β : Type} (tm : tagMatcher β) (tags tags' : Tags)
    (closed relation : Bool) (s : Source) (e : orderedDestTable)
    (hkeys : (tags.map Prod.fst).Nodup) (hperm : tags'.Perm tags)
    (hs : s ∈ sources tags) (he : e ∈ s.entries tm)
    (hmin : ∀ s' ∈ sources tags, s.otherKey s' = true →
      ∀ e' ∈ s'.entries tm, e'.toDestTable = e.toDestTable → e.order < e'.order) :
    (∃ om, mapGet (candidates tm tags') e.toDestTable = some om ∧
      om.Key = s.Key ∧ om.Value = s.Value) ∧
    (∀ m ∈ tm.match_ tags' closed relation, m.Table = e.toDestTable →
      m.Key = s.Key ∧ m.Value = s.Value) := by
  obtain ⟨om, hom, s', hs', e', he', hT, hle, rfl⟩ :=
    candidates_winner tm tags' s e ((sources_perm hperm s).2 hs) he
  have hs'' : s' ∈ sources tags := (sources_perm hperm s').1 hs'
  have hsame : s.otherKey s' = false := by
    cases hother : s.otherKey s' with
    | false => rfl
    | true =>
      exact absurd (lt_of_lt_of_le (hmin s' hs'' hother e' he' hT) hle) (lt_irrefl _)
  have hkv := source_same_key hkeys s s' hs hs'' hsame
  refine ⟨⟨_, hom, hkv.1, hkv.2⟩, ?_⟩
  intro m hm hmT
  obtain ⟨om', hom', rfl⟩ := match_mem_table tm tags' closed relation m hm
  rw [hmT, hom] at hom'
  cases hom'
  exact hkv

/-- C1, at the scenario of the specification: with `amenity` of order 0 and
`shop` of order 1 both mapped to `points`, the node
`{amenity: cafe, shop: bakery}` gives exactly one Match, for `points`, with Key
`amenity` and Value `cafe`, in both iteration orders of its tags. -/
theorem priority_winner_witness :
    (∃ om, mapGet (candidates scenarioMatcher [("shop", "bakery"), ("amenity", "cafe")])
        { Name := "points", Kind := "point" } = some om ∧
      om.Key = "amenity" ∧ om.Value = "cafe") ∧
    scenarioMatcher.MatchNode ⟨[("amenity", "cafe"), ("shop", "bakery")]⟩ =
      [{ Key := "amenity", Value := "cafe", Table := { Name := "points", Kind := "point" },
         builder := some () }] ∧
    scenarioMatcher.MatchNode ⟨[("shop", "bakery"), ("amenity", "cafe")]⟩ =
      [{ Key := "amenity", Value := "cafe", Table := { Name := "points", Kind := "point" },
         builder := some () }] :=
  ⟨(priority_winner scenarioMatcher [("amenity", "cafe"), ("shop", "bakery")]
      [("shop", "bakery"), ("amenity", "cafe")] false false
      (Source.tag "amenity" "cafe") { Name := "points", Kind := "point", order := 0 }
      (by decide) (List.Perm.swap _ _ _) (by decide) (by decide) (by decide)).1,
   by decide, by decide⟩

/-! ## Row building -/

theorem foldl_append_singleton {α γ : Type} (f : α → γ) (l : List α) (acc : List γ) :
    l.foldl (fun row x => row ++ [f x]) acc = acc ++ l.map f := by
  induction l generalizing acc with
  | nil => simp
  | cons x rest ih => simp [List.foldl_cons, ih]

theorem makeRow_eq_map {γ μ ν : Type} (r : rowBuilder γ μ ν) (elem : OSMElem)
    (geom : γ) (m : μ) :
    r.MakeRow elem geom m = r.columns.map (fun column => column.Value elem geom m) := by
  unfold rowBuilder.MakeRow
  rw [foldl_append_singleton]
  simp

theorem makeMemberRow_eq_map {γ μ ν : Type} (r : rowBuilder γ μ ν) (rel : Relation)
    (member : Member) (geom : γ) (m : μ) :
    r.MakeMemberRow rel member geom m =
      r.columns.map (fun column => column.MemberValue rel member geom m) := by
  unfold rowBuilder.MakeMemberRow
  rw [foldl_append_singleton]
  simp

/-- C11, as stated, fails: on a column with the flag "derive the value from
the member" set, no value function and a member function, and a member without
resolved sub-feature, `MemberValue` is not null: it is the result of the member
function. -/
theorem memberValue_flag_without_func :
    roleColumn.colType.FromMember = true ∧
    (Member.mk "outer" none).Elem = none ∧
    roleColumn.MemberValue ⟨[("type", "multipolygon")]⟩ (Member.mk "outer" none) ()
      exampleMatch = some "outer" ∧
    roleColumn.MemberValue ⟨[("type", "multipolygon")]⟩ (Member.mk "outer" none) ()
      exampleMatch ≠ none :=
  ⟨rfl, rfl, rfl, fun h => Option.noConfusion h⟩

/-- C11, amended: `MemberValue` looks at the value function first. With a value
function, the flag "derive the value from the member" decides between the
member (null without resolved sub-feature, else the function on the member's
tag value and the member feature) and the relation (the function on the
relation's tag value and the relation). Without a value function the flag is
not read: the result is the member function on (relation, member, match) when
there is one, else null. -/
theorem memberValue_dispatch {γ μ ν : Type} (v : valueBuilder γ μ ν) (rel : Relation)
    (member : Member) (geom : γ) (m : μ) :
    (∀ func, v.colType.Func = some func → v.colType.FromMember = true →
      member.Elem = none → v.MemberValue rel member geom m = none) ∧
    (∀ func elem, v.colType.Func = some func → v.colType.FromMember = true →
      member.Elem = some elem →
      v.MemberValue rel member geom m = func (elem.Tags.get v.key) elem geom m) ∧
    (∀ func, v.colType.Func = some func → v.colType.FromMember = false →
      v.MemberValue rel member geom m = func (rel.Tags.get v.key) rel.OSMElem geom m) ∧
    (∀ memberFunc, v.colType.Func = none → v.colType.MemberFunc = some memberFunc →
      v.MemberValue rel member geom m = memberFunc rel member m) ∧
    (v.colType.Func = none → v.colType.MemberFunc = none →
      v.MemberValue rel member geom m = none) := by
  refine ⟨?_, ?_, ?_, ?_, ?_⟩
  · intro func hf hm he
    simp [valueBuilder.MemberValue, hf, hm, he]
  · intro func elem hf hm he
    simp [valueBuilder.MemberValue, hf, hm, he]
  · intro func hf hm
    simp [valueBuilder.MemberValue, hf, hm]
  · intro memberFunc hf hm
    simp [valueBuilder.MemberValue, hf, hm]
  · intro hf hm
    simp [valueBuilder.MemberValue, hf, hm]

/-- C11, amended, at four columns: a member-derived column on a member
without and with a resolved sub-feature, a relation-level column, and a column
with only a member function and the flag set. -/
theorem memberValue_dispatch_witness :
    memberNameColumn.MemberValue ⟨[("name", "Park")]⟩ (Member.mk "outer" none) ()
      exampleMatch = none ∧
    memberNameColumn.MemberValue ⟨[("name", "Park")]⟩
      (Member.mk "outer" (some ⟨[("name", "Ring")]⟩)) () exampleMatch = some "Ring" ∧
    nameColumn.MemberValue ⟨[("name", "Park")]⟩
      (Member.mk "outer" (some ⟨[("name", "Ring")]⟩)) () exampleMatch = some "Park" ∧
    roleColumn.MemberValue ⟨[("name", "Park")]⟩ (Member.mk "outer" none) ()
      exampleMatch = some "outer" :=
  ⟨(memberValue_dispatch memberNameColumn ⟨[("name", "Park")]⟩ (Member.mk "outer" none) ()
      exampleMatch).1 _ rfl rfl rfl,
   (memberValue_dispatch memberNameColumn ⟨[("name", "Park")]⟩
      (Member.mk "outer" (some ⟨[("name", "Ring")]⟩)) () exampleMatch).2.1 _ _ rfl rfl rfl,
   (memberValue_dispatch nameColumn ⟨[("name", "Park")]⟩
      (Member.mk "outer" (some ⟨[("name", "Ring")]⟩)) () exampleMatch).2.2.1 _ rfl rfl,
   (memberValue_dispatch roleColumn ⟨[("name", "Park")]⟩ (Member.mk "outer" none) ()
      exampleMatch).2.2.2.1 _ rfl rfl⟩

/-- C12: `MakeRow` column values. The i-th value of the row is the value
function of the i-th column applied to the feature's tag value for the key of
the column (the empty string when the feature has no such tag), the feature,
the geometry and the match; it is null when the column has no value function,
whatever its member function and its flag. -/
theorem makeRow_values {γ μ ν : Type} (r : rowBuilder γ μ ν) (elem : OSMElem)
    (geom : γ) (m : μ) :
    (∀ i : Nat, (r.MakeRow elem geom m)[i]? =
      (r.columns[i]?).map (fun (column : valueBuilder γ μ ν) =>
        match column.colType.Func with
        | some func => func (elem.Tags.get column.key) elem geom m
        | none => none)) ∧
    (∀ (i : Nat) (column : valueBuilder γ μ ν), r.columns[i]? = some column → column.colType.Func = none →
      (r.MakeRow elem geom m)[i]? = some none) ∧
    (∀ tags k, mapGet tags k = none → Tags.get tags k = "") := by
  have h : ∀ i : Nat, (r.MakeRow elem geom m)[i]? =
      (r.columns[i]?).map (fun (column : valueBuilder γ μ ν) =>
        match column.colType.Func with
        | some func => func (elem.Tags.get column.key) elem geom m
        | none => none) := by
    intro i
    rw [makeRow_eq_map, List.getElem?_map]
    rfl
  refine ⟨h, ?_, ?_⟩
  · intro i column hc hf
    rw [h i, hc]
    simp [hf]
  · intro tags k hk
    simp [Tags.get, hk]

/-- C13: row shape. For a row schema of N columns, `MakeRow` and
`MakeMemberRow` return rows of exactly N values, and the value at position i is
the one computed by the i-th column of the schema, null values included. -/
theorem row_shape {γ μ ν : Type} (r : rowBuilder γ μ ν) (elem : OSMElem) (rel : Relation)
    (member : Member) (geom : γ) (m : μ) :
    (r.MakeRow elem geom m).length = r.columns.length ∧
    (r.MakeMemberRow rel member geom m).length = r.columns.length ∧
    (∀ i : Nat, (r.MakeRow elem geom m)[i]? =
      (r.columns[i]?).map (fun (column : valueBuilder γ μ ν) => column.Value elem geom m)) ∧
    (∀ i : Nat, (r.MakeMemberRow rel member geom m)[i]? =
      (r.columns[i]?).map (fun (column : valueBuilder γ μ ν) => column.MemberValue rel member geom m)) := by
  refine ⟨?_, ?_, ?_, ?_⟩
  · rw [makeRow_eq_map, List.length_map]
  · rw [makeMemberRow_eq_map, List.length_map]
  · intro i
    rw [makeRow_eq_map, List.getElem?_map]
  · intro i
    rw [makeMemberRow_eq_map, List.getElem?_map]

/-- C12, at a schema of four columns: the columns without value function give
null, the others the tag `name` of the feature. -/
theorem makeRow_values_witness :
    exampleSchema.MakeRow ⟨[("name", "Park")]⟩ () exampleMatch =
      [some "Park", none, none, some "Park"] ∧
    (exampleSchema.MakeRow ⟨[("name", "Park")]⟩ () exampleMatch)[1]? = some none ∧
    exampleSchema.MakeRow ⟨[]⟩ () exampleMatch = [some "", none, none, some ""] :=
  ⟨rfl,
   (makeRow_values exampleSchema ⟨[("name", "Park")]⟩ () exampleMatch).2.1 1 roleColumn
      rfl rfl,
   rfl⟩

/-! ## Unmatched features, partition, soundness -/

theorem candidates_nil_of_no_entries {β : Type} (tm : tagMatcher β) (tags : Tags)
    (hw : wildcardEntries tm = [])
    (ht : ∀ kv ∈ tags, tagEntries tm kv.1 kv.2 = []) : candidates tm tags = [] := by
  rw [candidates_eq_foldl]
  have hseq : candidateSeq tm tags = [] := by
    unfold candidateSeq
    rw [hw]
    simp only [List.map_nil, List.nil_append, List.flatMap_eq_nil_iff]
    intro kv hkv
    rw [ht kv hkv]
    rfl
  rw [hseq]
  rfl

/-- C15: unmatched features yield nothing. When the index lists no table under
`"__any__"` / `"__any__"` and, for every tag `k=v` of the feature, no table
under `k` / `"__any__"` nor under `k` / `v`, then `match`, `MatchNode`,
`MatchWay` and `MatchRelation` return the empty list, whatever the filter
chains, the flags and the area and linear tag sets. -/
theorem unmatched_yields_nothing {β : Type} (tm : tagMatcher β) (tags : Tags)
    (closed relation : Bool)
    (hw : wildcardEntries tm = [])
    (ht : ∀ kv ∈ tags, tagEntries tm kv.1 kv.2 = []) :
    tm.match_ tags closed relation = [] ∧
    tm.MatchNode ⟨tags⟩ = [] ∧
    tm.MatchWay ⟨tags, closed⟩ = [] ∧
    tm.MatchRelation ⟨tags⟩ = [] := by
  have key : ∀ c r, tm.match_ tags c r = [] := by
    intro c r
    rw [match_eq_filter, candidates_nil_of_no_entries tm tags hw ht]
    rfl
  exact ⟨key _ _, key _ _, key _ _, key _ _⟩

/-- C15, at the feature without tags and at the feature `{name: Park}`, which
the index of `lineMatcher` does not list. -/
theorem unmatched_yields_nothing_witness :
    lineMatcher.MatchWay ⟨[], false⟩ = [] ∧
    areaMatcher.MatchRelation ⟨[("name", "Park")]⟩ = [] ∧
    scenarioMatcher.MatchNode ⟨[("name", "Park")]⟩ = [] :=
  ⟨(unmatched_yields_nothing lineMatcher [] false false (by decide) (by decide)).2.2.1,
   (unmatched_yields_nothing areaMatcher [("name", "Park")] true true (by decide)
      (by decide)).2.2.2,
   (unmatched_yields_nothing scenarioMatcher [("name", "Park")] false false (by decide)
      (by decide)).2.1⟩

theorem any_congr_mem (tags : Tags) (l₁ l₂ : List String)
    (h : ∀ k, k ∈ l₁ ↔ k ∈ l₂) :
    l₁.any (fun k => tags.has k) = l₂.any (fun k => tags.has k) := by
  rw [Bool.eq_iff_iff, List.any_eq_true, List.any_eq_true]
  constructor
  · rintro ⟨k, hk, hh⟩
    exact ⟨k, (h k).1 hk, hh⟩
  · rintro ⟨k, hk, hh⟩
    exact ⟨k, (h k).2 hk, hh⟩

/-- C18: line / area classification is an exact partition of ways. For an
area-capable and a line-capable matcher with the same area-tag and linear-tag
sets, the geometry decision of the line matcher on any way, open or closed, is
the negation of that of the area matcher: exactly one of the two excludes the
way. The decision is taken without the destination table, and the matcher that
excludes the way returns the empty list. -/
theorem line_area_partition {β : Type} (area line : tagMatcher β) (way : Way)
    (hA : AreaCapable area) (hL : LineCapable line)
    (harea : ∀ k, k ∈ line.areaTags ↔ k ∈ area.areaTags)
    (hlinear : ∀ k, k ∈ line.linearTags ↔ k ∈ area.linearTags) :
    geometryFilteredOut line way.Tags way.IsClosed false =
      !geometryFilteredOut area way.Tags way.IsClosed false ∧
    (geometryFilteredOut area way.Tags way.IsClosed false = true →
      area.MatchWay way = []) ∧
    (geometryFilteredOut line way.Tags way.IsClosed false = true →
      line.MatchWay way = []) ∧
    (area.MatchWay way = [] ∨ line.MatchWay way = []) := by
  obtain ⟨hAa, hAl⟩ := hA
  obtain ⟨hLl, hLa⟩ := hL
  have hneg : geometryFilteredOut line way.Tags way.IsClosed false =
      !geometryFilteredOut area way.Tags way.IsClosed false := by
    cases hc : way.IsClosed with
    | false =>
      rw [geometry_open line way.Tags (by simp [hLl]),
        geometry_open area way.Tags (by simp [hAa])]
      simp [hLl, hAl]
    | true =>
      rw [geometry_closed line way.Tags (by simp [hLl]),
        geometry_closed area way.Tags (by simp [hAa]),
        any_congr_mem way.Tags _ _ harea, any_congr_mem way.Tags _ _ hlinear]
      simp only [hLa, hAa]
      cases area.areaTags.any (fun k => way.Tags.has k) <;>
        cases area.linearTags.any (fun k => way.Tags.has k) <;>
        by_cases hy : way.Tags.get "area" = "yes" <;>
        by_cases hn : way.Tags.get "area" = "no" <;> simp [hy, hn, bne]
  refine ⟨hneg, fun h => match_excluded area _ _ _ h, fun h => match_excluded line _ _ _ h, ?_⟩
  cases hg : geometryFilteredOut area way.Tags way.IsClosed false with
  | true => exact Or.inl (match_excluded area _ _ _ hg)
  | false =>
    refine Or.inr (match_excluded line _ _ _ ?_)
    rw [hneg, hg]
    rfl

/-- C18, at the closed way `{highway: pedestrian, area: yes}` and at the open
way `{building: yes}`: the two decisions are opposite. -/
theorem line_area_partition_witness :
    geometryFilteredOut lineMatcher [("highway", "pedestrian"), ("area", "yes")] true false =
      !geometryFilteredOut areaMatcher [("highway", "pedestrian"), ("area", "yes")] true
        false ∧
    geometryFilteredOut lineMatcher [("building", "yes")] false false = false ∧
    geometryFilteredOut areaMatcher [("building", "yes")] false false = true ∧
    areaMatcher.MatchWay ⟨[("building", "yes")], false⟩ = [] :=
  ⟨(line_area_partition areaMatcher lineMatcher
      ⟨[("highway", "pedestrian"), ("area", "yes")], true⟩ ⟨rfl, rfl⟩ ⟨rfl, rfl⟩
      (fun _ => Iff.rfl) (fun _ => Iff.rfl)).1,
   by decide, by decide,
   (line_area_partition areaMatcher lineMatcher ⟨[("building", "yes")], false⟩
      ⟨rfl, rfl⟩ ⟨rfl, rfl⟩ (fun _ => Iff.rfl) (fun _ => Iff.rfl)).2.1 (by decide)⟩

/-- Where a stored candidate comes from: the wildcard-key entry or a tag of
the feature, with the row schema registered under the name of its table. -/
theorem candidate_origin {β : Type} (tm : tagMatcher β) (tags : Tags) (T : DestTable)
    (om : orderedMatch β) (hom : mapGet (candidates tm tags) T = some om) :
    ((om.Key = "__any__" ∧ om.Value = "__any__" ∧
        ∃ e ∈ wildcardEntries tm, e.toDestTable = om.Table) ∨
      (∃ k v, (k, v) ∈ tags ∧ om.Key = k ∧ om.Value = v ∧
        ∃ e ∈ tagEntries tm k v, e.toDestTable = om.Table)) ∧
    om.builder = mapGet tm.tables om.Table.Name := by
  obtain ⟨_, hget, _⟩ := resolved_candidates tm tags
  obtain ⟨hmem, _, _⟩ := hget _ _ hom
  obtain ⟨s, hs, e, he, rfl⟩ := (mem_candidateSeq tm tags _).1 hmem
  refine ⟨?_, rfl⟩
  cases s with
  | wildcard => exact Or.inl ⟨rfl, rfl, e, he, rfl⟩
  | tag k v =>
    have hkv : (k, v) ∈ tags := by
      simpa [sources] using hs
    exact Or.inr ⟨k, v, hkv, rfl, rfl, e, he, rfl⟩

/-- C19: soundness of returned Matches. Every Match returned by `match`
either has Key and Value `"__any__"` and a table listed under the wildcard key
and wildcard value, or has the key and the value of a tag `k=v` of the feature
and a table listed under `k` / `"__any__"` or under `k` / `v`; its row schema
is the one registered under the name of its table. -/
theorem match_sound {β : Type} (tm : tagMatcher β) (tags : Tags) (closed relation : Bool)
    (m : Match β) (hm : m ∈ tm.match_ tags closed relation) :
    ((m.Key = "__any__" ∧ m.Value = "__any__" ∧
        ∃ e ∈ wildcardEntries tm, e.toDestTable = m.Table) ∨
      (∃ k v, (k, v) ∈ tags ∧ m.Key = k ∧ m.Value = v ∧
        ∃ e ∈ tagEntries tm k v, e.toDestTable = m.Table)) ∧
    m.builder = mapGet tm.tables m.Table.Name := by
  obtain ⟨om, hom, rfl⟩ := match_mem_table tm tags closed relation m hm
  obtain ⟨hsrc, hb⟩ := candidate_origin tm tags _ om hom
  refine ⟨?_, hb⟩
  rcases hsrc with ⟨hk, hv, e, he, hT⟩ | ⟨k, v, hkv, hk, hv, e, he, hT⟩
  · exact Or.inl ⟨hk, hv, e, he, hT⟩
  · exact Or.inr ⟨k, v, hkv, hk, hv, e, he, hT⟩

/-- C19, at the node `{amenity: cafe}` under a wildcard-value rule: the Match
reports the value `cafe` of the tag, not `"__any__"`. -/
theorem match_sound_witness :
    ∃ k v, (k, v) ∈ [("amenity", "cafe")] ∧ k = "amenity" ∧ v = "cafe" ∧
      ∃ e ∈ tagEntries scenarioMatcher k v,
        e.toDestTable = { Name := "points", Kind := "point" } :=
  ((match_sound scenarioMatcher [("amenity", "cafe")] false false
      { Key := "amenity", Value := "cafe", Table := { Name := "points", Kind := "point" },
        builder := some () } (by decide)).1.resolve_left
    (fun h => absurd h.1 (by decide))).imp
    (fun _ h => h.imp (fun _ h' => ⟨h'.1, h'.2.1.symm, h'.2.2.1.symm, h'.2.2.2⟩))

/-! ## Rows never fail -/

theorem wildcardEntries_listed {β : Type} (tm : tagMatcher β) (e : orderedDestTable)
    (he : e ∈ wildcardEntries tm) :
    ∃ kv ∈ tm.mappings, ∃ vt ∈ kv.2, e ∈ vt.2 := by
  unfold wildcardEntries at he
  cases hk : mapGet tm.mappings "__any__" with
  | none => simp [hk] at he
  | some values =>
    rw [hk] at he
    cases hv : mapGet values "__any__" with
    | none => simp [hv] at he
    | some tbls =>
      simp only [hv, Option.getD_some] at he
      exact ⟨_, mem_of_mapGet _ _ _ hk, _, mem_of_mapGet _ _ _ hv, he⟩

theorem tagEntries_listed {β : Type} (tm : tagMatcher β) (k v : String)
    (e : orderedDestTable) (he : e ∈ tagEntries tm k v) :
    ∃ kv ∈ tm.mappings, ∃ vt ∈ kv.2, e ∈ vt.2 := by
  unfold tagEntries at he
  cases hk : mapGet tm.mappings k with
  | none => simp [hk] at he
  | some values =>
    rw [hk] at he
    rcases List.mem_append.1 he with h | h
    · cases hv : mapGet values "__any__" with
      | none => simp [hv] at h
      | some tbls =>
        simp only [hv, Option.getD_some] at h
        exact ⟨_, mem_of_mapGet _ _ _ hk, _, mem_of_mapGet _ _ _ hv, h⟩
    · cases hv : mapGet values v with
      | none => simp [hv] at h
      | some tbls =>
        simp only [hv, Option.getD_some] at h
        exact ⟨_, mem_of_mapGet _ _ _ hk, _, mem_of_mapGet _ _ _ hv, h⟩

/-- C16: runtime matching and row building never fail. `match` is a total
function of its inputs. When the row-schema map of the matcher has an entry for
the name of every table listed in its index, every Match it returns carries the
row schema of its table, and `Match.Row` and `Match.MemberRow` return a row, of
as many values as the schema has columns, for every feature, relation and
member, a member without resolved sub-feature included. -/
theorem rows_never_fail {γ ν : Type} (tm : tagMatcher (rowBuilder γ (Match Unit) ν))
    (tags : Tags) (closed relation : Bool)
    (hschema : ∀ kv ∈ tm.mappings, ∀ vt ∈ kv.2, ∀ t ∈ vt.2,
      (mapGet tm.tables t.Name).isSome = true)
    (m : Match (rowBuilder γ (Match Unit) ν))
    (hm : m ∈ tm.match_ tags closed relation) :
    ∃ builder, m.builder = some builder ∧
      mapGet tm.tables m.Table.Name = some builder ∧
      (∀ elem geom, ∃ row, m.Row elem geom = some row ∧
        row.length = builder.columns.length) ∧
      (∀ rel member geom, ∃ row, m.MemberRow rel member geom = some row ∧
        row.length = builder.columns.length) := by
  have horigin : ((∃ e ∈ wildcardEntries tm, e.toDestTable = m.Table) ∨
        (∃ k v, ∃ e ∈ tagEntries tm k v, e.toDestTable = m.Table)) ∧
      m.builder = mapGet tm.tables m.Table.Name := by
    obtain ⟨om, hom, rfl⟩ := match_mem_table tm tags closed relation m hm
    obtain ⟨hsrc, hb⟩ := candidate_origin tm tags _ om hom
    refine ⟨?_, hb⟩
    rcases hsrc with ⟨_, _, e, he, hT⟩ | ⟨k, v, _, _, _, e, he, hT⟩
    · exact Or.inl ⟨e, he, hT⟩
    · exact Or.inr ⟨k, v, e, he, hT⟩
  obtain ⟨hsrc, hb⟩ := horigin
  have hlisted : ∃ e : orderedDestTable, e.toDestTable = m.Table ∧
      ∃ kv ∈ tm.mappings, ∃ vt ∈ kv.2, e ∈ vt.2 := by
    rcases hsrc with ⟨e, he, hT⟩ | ⟨k, v, e, he, hT⟩
    · exact ⟨e, hT, wildcardEntries_listed tm e he⟩
    · exact ⟨e, hT, tagEntries_listed tm k v e he⟩
  obtain ⟨e, hT, kv, hkv, vt, hvt, het⟩ := hlisted
  have hsome := hschema kv hkv vt hvt e het
  have hname : e.Name = m.Table.Name := by rw [← hT]
  rw [hname, ← hb] at hsome
  obtain ⟨builder, hbuilder⟩ := Option.isSome_iff_exists.1 hsome
  refine ⟨builder, hbuilder, ?_, ?_, ?_⟩
  · rw [← hb, hbuilder]
  · intro elem geom
    refine ⟨builder.MakeRow elem geom m.view, by simp [Match.Row, hbuilder], ?_⟩
    rw [makeRow_eq_map, List.length_map]
  · intro rel member geom
    refine ⟨builder.MakeMemberRow rel member geom m.view,
      by simp [Match.MemberRow, hbuilder], ?_⟩
    rw [makeMemberRow_eq_map, List.length_map]

/-- C16, at the node `{building: yes, name: Park}` and the matcher whose table
`ways` has the four columns of `exampleSchema`: the Match gives a row, and a
member row for a member without resolved sub-feature. -/
theorem rows_never_fail_witness :
    (∃ row, Match.Row
        ({ Key := "building", Value := "yes", Table := { Name := "ways", Kind := "way" },
           builder := some exampleSchema } : Match (rowBuilder Unit (Match Unit) String))
        ⟨[("building", "yes"), ("name", "Park")]⟩ () = some row ∧ row.length = 4) ∧
    Match.MemberRow
        ({ Key := "building", Value := "yes", Table := { Name := "ways", Kind := "way" },
           builder := some exampleSchema } : Match (rowBuilder Unit (Match Unit) String))
        ⟨[("name", "Park")]⟩ (Member.mk "outer" none) () =
      some [some "Park", some "outer", none, none] :=
  ⟨(rows_never_fail schemaMatcher [("building", "yes"), ("name", "Park")] false false
      (by decide)
      { Key := "building", Value := "yes", Table := { Name := "ways", Kind := "way" },
        builder := some exampleSchema }
      (List.mem_singleton.2 rfl)).elim
      (fun builder h =>
        have hb : builder = exampleSchema := (Option.some.inj h.1).symm
        (h.2.2.1 ⟨[("building", "yes"), ("name", "Park")]⟩ ()).imp
          (fun _ hr => ⟨hr.1, by rw [hr.2, hb]; rfl⟩)),
   rfl⟩

/-! ## The stored candidate, table by table -/

theorem store_eq_pick {β : Type} (tables : List (DestTable × orderedMatch β))
    (c : orderedMatch β) :
    store tables c = mapSet tables c.Table (pick (mapGet tables c.Table) c) := rfl

theorem mapGet_store {β : Type} (tables : List (DestTable × orderedMatch β))
    (c : orderedMatch β) (T : DestTable) :
    mapGet (store tables c) T =
      if c.Table = T then some (pick (mapGet tables T) c) else mapGet tables T := by
  rw [store_eq_pick]
  by_cases h : c.Table = T
  · subst h
    simp [mapGet_mapSet_self]
  · have h' : T ≠ c.Table := fun e => h e.symm
    simp [h, mapGet_mapSet_ne _ _ _ _ h']

theorem bestOf_cons {β : Type} (acc : Option (orderedMatch β)) (c : orderedMatch β)
    (l : List (orderedMatch β)) : bestOf acc (c :: l) = bestOf (some (pick acc c)) l := rfl

theorem bestOf_append {β : Type} (acc : Option (orderedMatch β))
    (l l' : List (orderedMatch β)) : bestOf acc (l ++ l') = bestOf (bestOf acc l) l' := by
  unfold bestOf
  rw [List.foldl_append]

theorem mapGet_foldl_store {β : Type} (seq : List (orderedMatch β))
    (tables : List (DestTable × orderedMatch β)) (T : DestTable) :
    mapGet (seq.foldl store tables) T =
      bestOf (mapGet tables T) (seq.filter (fun c => decide (c.Table = T))) := by
  induction seq generalizing tables with
  | nil => rfl
  | cons c rest ih =>
    rw [List.foldl_cons, ih, mapGet_store]
    by_cases h : c.Table = T
    · simp [List.filter_cons, h, bestOf_cons]
    · simp [List.filter_cons, h]

theorem mapGet_candidates {β : Type} (tm : tagMatcher β) (tags : Tags) (T : DestTable) :
    mapGet (candidates tm tags) T =
      bestOf none ((candidateSeq tm tags).filter (fun c => decide (c.Table = T))) := by
  rw [candidates_eq_foldl, mapGet_foldl_store]
  rfl

theorem pick_le {β : Type} (acc : Option (orderedMatch β)) (c : orderedMatch β) :
    (pick acc c).order ≤ c.order ∧ ∀ a, acc = some a → (pick acc c).order ≤ a.order := by
  cases acc with
  | none => exact ⟨le_refl _, fun a h => by cases h⟩
  | some other =>
    by_cases h : other.order < c.order
    · refine ⟨by simp [pick, h, le_of_lt h], ?_⟩
      intro a ha
      cases ha
      simp [pick, h]
    · refine ⟨by simp [pick, h], ?_⟩
      intro a ha
      cases ha
      simp [pick, h, not_lt.1 h]

theorem bestOf_mem {β : Type} (acc : Option (orderedMatch β)) (l : List (orderedMatch β))
    (r : orderedMatch β) (h : bestOf acc l = some r) :
    (acc = some r ∧ ∀ x ∈ l, r.order < x.order) ∨ r ∈ l := by
  induction l generalizing acc with
  | nil => exact Or.inl ⟨h, by simp⟩
  | cons c rest ih =>
    rw [bestOf_cons] at h
    rcases ih _ h with ⟨hr, hlt⟩ | hr
    · have hr' : pick acc c = r := Option.some.inj hr
      cases acc with
      | none =>
        simp only [pick] at hr'
        exact Or.inr (by simp [hr'])
      | some other =>
        by_cases hc : other.order < c.order
        · simp only [pick, hc, if_true] at hr'
          subst hr'
          refine Or.inl ⟨rfl, ?_⟩
          intro x hx
          rcases List.mem_cons.1 hx with hx | hx
          · rw [hx]
            exact hc
          · exact hlt x hx
        · simp only [pick, hc, if_false] at hr'
          exact Or.inr (by simp [hr'])
    · exact Or.inr (List.mem_cons_of_mem _ hr)

theorem bestOf_min {β : Type} (acc : Option (orderedMatch β)) (l : List (orderedMatch β))
    (r : orderedMatch β) (h : bestOf acc l = some r) :
    (∀ a, acc = some a → r.order ≤ a.order) ∧ ∀ x ∈ l, r.order ≤ x.order := by
  induction l generalizing acc with
  | nil =>
    refine ⟨?_, by simp⟩
    intro a ha
    have h' : acc = some r := h
    rw [h'] at ha
    cases ha
    exact le_refl _
  | cons c rest ih =>
    rw [bestOf_cons] at h
    obtain ⟨h1, h2⟩ := ih _ h
    have hp := h1 _ rfl
    obtain ⟨hc, ha⟩ := pick_le acc c
    refine ⟨fun a haa => le_trans hp (ha a haa), ?_⟩
    intro x hx
    rcases List.mem_cons.1 hx with hx | hx
    · rw [hx]
      exact le_trans hp hc
    · exact h2 x hx

theorem bestOf_eq_none {β : Type} (acc : Option (orderedMatch β))
    (l : List (orderedMatch β)) (h : bestOf acc l = none) : acc = none ∧ l = [] := by
  induction l generalizing acc with
  | nil => exact ⟨h, rfl⟩
  | cons c rest ih =>
    rw [bestOf_cons] at h
    have := (ih _ h).1
    cases this

theorem bestOf_exists {β : Type} (acc : Option (orderedMatch β))
    (l : List (orderedMatch β)) (x : orderedMatch β) (hx : x ∈ l) :
    ∃ r, bestOf acc l = some r := by
  cases h : bestOf acc l with
  | some r => exact ⟨r, rfl⟩
  | none =>
    have := (bestOf_eq_none acc l h).2
    rw [this] at hx
    simp at hx

/-- The stored candidate does not depend on the order of the candidates
offered, as long as no two of them have the same order. -/
theorem bestOf_congr {β : Type} (acc : Option (orderedMatch β))
    (l₁ l₂ : List (orderedMatch β)) (hmem : ∀ x, x ∈ l₁ ↔ x ∈ l₂)
    (hinj : ∀ x ∈ l₁, ∀ y ∈ l₁, x.order = y.order → x = y) :
    bestOf acc l₁ = bestOf acc l₂ := by
  cases h₁ : bestOf acc l₁ with
  | none =>
    obtain ⟨ha, hl⟩ := bestOf_eq_none acc l₁ h₁
    have hl₂ : l₂ = [] := by
      cases l₂ with
      | nil => rfl
      | cons y rest =>
        have := (hmem y).2 (by simp)
        rw [hl] at this
        simp at this
    rw [ha, hl₂]
    rfl
  | some r₁ =>
    cases h₂ : bestOf acc l₂ with
    | none =>
      obtain ⟨ha, hl⟩ := bestOf_eq_none acc l₂ h₂
      have hl₁ : l₁ = [] := by
        cases l₁ with
        | nil => rfl
        | cons y rest =>
          have := (hmem y).1 (by simp)
          rw [hl] at this
          simp at this
      rw [ha, hl₁] at h₁
      cases h₁
    | some r₂ =>
      obtain ⟨m₁a, m₁l⟩ := bestOf_min acc l₁ r₁ h₁
      obtain ⟨m₂a, m₂l⟩ := bestOf_min acc l₂ r₂ h₂
      rcases bestOf_mem acc l₁ r₁ h₁ with ⟨ha₁, hlt₁⟩ | hr₁
      · rcases bestOf_mem acc l₂ r₂ h₂ with ⟨ha₂, _⟩ | hr₂
        · rw [ha₁] at ha₂
          exact ha₂
        · have h1 := hlt₁ r₂ ((hmem r₂).2 hr₂)
          have h2 := m₂a r₁ ha₁
          exact absurd (lt_of_lt_of_le h1 h2) (lt_irrefl _)
      · rcases bestOf_mem acc l₂ r₂ h₂ with ⟨ha₂, hlt₂⟩ | hr₂
        · have h1 := hlt₂ r₁ ((hmem r₁).1 hr₁)
          have h2 := m₁a r₂ ha₂
          exact absurd (lt_of_lt_of_le h1 h2) (lt_irrefl _)
        · have h1 := m₁l r₂ ((hmem r₂).2 hr₂)
          have h2 := m₂l r₁ ((hmem r₁).1 hr₁)
          rw [hinj r₁ hr₁ r₂ ((hmem r₂).2 hr₂) (le_antisymm h1 h2)]

/-! ## Ties -/

theorem candidateSeq_split {β : Type} (tm : tagMatcher β) (pre post : Tags)
    (kv : String × String) :
    candidateSeq tm (pre ++ kv :: post) =
      candidateSeq tm pre ++
        ((tagEntries tm kv.1 kv.2).map (mkCandidate tm kv.1 kv.2) ++
          post.flatMap
            (fun kv => (tagEntries tm kv.1 kv.2).map (mkCandidate tm kv.1 kv.2))) := by
  unfold candidateSeq
  simp [List.flatMap_append, List.append_assoc]

theorem mem_tag_part {β : Type} (tm : tagMatcher β) (l : Tags) (T : DestTable)
    (x : orderedMatch β) :
    x ∈ (l.flatMap
        (fun kv => (tagEntries tm kv.1 kv.2).map (mkCandidate tm kv.1 kv.2))).filter
        (fun c => decide (c.Table = T)) ↔
      ∃ kv ∈ l, ∃ e ∈ tagEntries tm kv.1 kv.2,
        e.toDestTable = T ∧ x = mkCandidate tm kv.1 kv.2 e := by
  simp only [List.mem_filter, List.mem_flatMap, List.mem_map, decide_eq_true_eq]
  constructor
  · rintro ⟨⟨kv, hkv, e, he, rfl⟩, hT⟩
    exact ⟨kv, hkv, e, he, hT, rfl⟩
  · rintro ⟨kv, hkv, e, he, hT, rfl⟩
    exact ⟨⟨kv, hkv, e, he, rfl⟩, hT⟩

theorem mem_seq_part {β : Type} (tm : tagMatcher β) (l : Tags) (T : DestTable)
    (x : orderedMatch β)
    (hx : x ∈ (candidateSeq tm l).filter (fun c => decide (c.Table = T))) :
    ∃ s ∈ sources l, ∃ e ∈ s.entries tm,
      e.toDestTable = T ∧ x = mkCandidate tm s.Key s.Value e := by
  simp only [List.mem_filter, decide_eq_true_eq] at hx
  obtain ⟨s, hs, e, he, rfl⟩ := (mem_candidateSeq tm l x).1 hx.1
  exact ⟨s, hs, e, he, hx.2, rfl⟩

theorem bestOf_some_stable {β : Type} (r : orderedMatch β) (l : List (orderedMatch β))
    (h : ∀ x ∈ l, r.order < x.order) : bestOf (some r) l = some r := by
  cases h' : bestOf (some r) l with
  | none =>
    have := (bestOf_eq_none _ _ h').1
    cases this
  | some r' =>
    rcases bestOf_mem _ _ _ h' with ⟨hacc, _⟩ | hmem
    · exact hacc.symm
    · have h1 := h r' hmem
      have h2 := (bestOf_min _ _ _ h').1 r rfl
      exact absurd (lt_of_lt_of_le h1 h2) (lt_irrefl _)

/-- Among the tags whose entries for a table have the least order, the one
iterated last gives the stored candidate. -/
theorem last_least_wins {β : Type} (tm : tagMatcher β) (pre post : Tags)
    (b vb : String) (T : DestTable) (o : Int)
    (heb : ∃ e ∈ tagEntries tm b vb, e.toDestTable = T ∧ e.order = o)
    (hw : ∀ e ∈ wildcardEntries tm, e.toDestTable = T → o ≤ e.order)
    (hpre : ∀ kv ∈ pre, ∀ e ∈ tagEntries tm kv.1 kv.2, e.toDestTable = T → o ≤ e.order)
    (hpost : ∀ kv ∈ post, ∀ e ∈ tagEntries tm kv.1 kv.2, e.toDestTable = T → o < e.order) :
    ∃ om, mapGet (candidates tm (pre ++ (b, vb) :: post)) T = some om ∧
      om.Key = b ∧ om.Value = vb := by
  rw [mapGet_candidates, candidateSeq_split, List.filter_append, List.filter_append,
    bestOf_append, bestOf_append]
  obtain ⟨e0, he0, hT0, ho0⟩ := heb
  have hx0 : mkCandidate tm b vb e0 ∈
      ((tagEntries tm b vb).map (mkCandidate tm b vb)).filter
        (fun c => decide (c.Table = T)) := by
    simp only [List.mem_filter, List.mem_map, decide_eq_true_eq]
    exact ⟨⟨e0, he0, rfl⟩, hT0⟩
  obtain ⟨r, hr⟩ := bestOf_exists
    (bestOf none ((candidateSeq tm pre).filter (fun c => decide (c.Table = T)))) _ _ hx0
  have hrB : r ∈ ((tagEntries tm b vb).map (mkCandidate tm b vb)).filter
      (fun c => decide (c.Table = T)) := by
    rcases bestOf_mem _ _ _ hr with ⟨hacc, hlt⟩ | h
    · exfalso
      have hlt0 : r.order < o := by
        have := hlt _ hx0
        rw [← ho0]
        exact this
      rcases bestOf_mem _ _ _ hacc with ⟨hn, _⟩ | hP
      · cases hn
      · obtain ⟨s, hs, e, he, hT, rfl⟩ := mem_seq_part tm pre T r hP
        have hge : o ≤ e.order := by
          cases s with
          | wildcard => exact hw e he hT
          | tag k v =>
            have hkv : (k, v) ∈ pre := by
              simpa [sources] using hs
            exact hpre (k, v) hkv e he hT
        exact absurd (lt_of_lt_of_le hlt0 hge) (lt_irrefl _)
    · exact h
  have hro : r.order ≤ o := by
    have := (bestOf_min _ _ _ hr).2 _ hx0
    rw [← ho0]
    exact this
  rw [hr]
  refine ⟨r, ?_, ?_⟩
  · apply bestOf_some_stable
    intro x hx
    obtain ⟨kv, hkv, e, he, hT, rfl⟩ := (mem_tag_part tm post T x).1 hx
    exact lt_of_le_of_lt hro (hpost kv hkv e he hT)
  · simp only [List.mem_filter, List.mem_map] at hrB
    obtain ⟨⟨e, _, rfl⟩, _⟩ := hrB
    exact ⟨rfl, rfl⟩

/-- C17, as stated, fails: the tags `amenity` and `shop` have different keys
and entries of equal order 1 for the table `points`, but the tag `tourism` has
an entry of order 0 for it. On the node
`{amenity: cafe, shop: bakery, tourism: hotel}` the Match kept for `points` has
Key `tourism` in every iteration order of the tags: it is not that of the one
of `amenity` and `shop` iterated last, and exchanging `amenity` and `shop` does
not change the Key. -/
theorem smaller_order_beats_tie :
    (∃ e ∈ tagEntries beatenTieMatcher "amenity" "cafe",
      e.toDestTable = { Name := "points", Kind := "point" } ∧ e.order = 1) ∧
    (∃ e ∈ tagEntries beatenTieMatcher "shop" "bakery",
      e.toDestTable = { Name := "points", Kind := "point" } ∧ e.order = 1) ∧
    beatenTieMatcher.MatchNode
        ⟨[("amenity", "cafe"), ("shop", "bakery"), ("tourism", "hotel")]⟩ =
      [{ Key := "tourism", Value := "hotel", Table := { Name := "points", Kind := "point" },
         builder := some () }] ∧
    beatenTieMatcher.MatchNode
        ⟨[("shop", "bakery"), ("amenity", "cafe"), ("tourism", "hotel")]⟩ =
      [{ Key := "tourism", Value := "hotel", Table := { Name := "points", Kind := "point" },
         builder := some () }] ∧
    beatenTieMatcher.MatchNode
        ⟨[("tourism", "hotel"), ("amenity", "cafe"), ("shop", "bakery")]⟩ =
      [{ Key := "tourism", Value := "hotel", Table := { Name := "points", Kind := "point" },
         builder := some () }] ∧
    beatenTieMatcher.MatchNode
        ⟨[("tourism", "hotel"), ("shop", "bakery"), ("amenity", "cafe")]⟩ =
      [{ Key := "tourism", Value := "hotel", Table := { Name := "points", Kind := "point" },
         builder := some () }] ∧
    beatenTieMatcher.MatchNode
        ⟨[("amenity", "cafe"), ("tourism", "hotel"), ("shop", "bakery")]⟩ =
      [{ Key := "tourism", Value := "hotel", Table := { Name := "points", Kind := "point" },
         builder := some () }] ∧
    beatenTieMatcher.MatchNode
        ⟨[("shop", "bakery"), ("tourism", "hotel"), ("amenity", "cafe")]⟩ =
      [{ Key := "tourism", Value := "hotel", Table := { Name := "points", Kind := "point" },
         builder := some () }] := by
  decide

/-- C17, amended: equal-order tie-break. (1) When `addTables` offers a
candidate for a table that already has a stored candidate, the stored one is
kept if its order is strictly smaller, and is replaced otherwise, equal orders
included. (2) A tag of the feature whose entry for a table has an order not
greater than the wildcard-key entries for that table takes the table: the
stored candidate has the key and the value of a tag. (3) When two tags with
different keys `a` and `b` both have an entry for the table with the least
order of all its candidates, and the tags iterated after both have greater
orders, the stored candidate is that of the one iterated last: it has Key `b`
when `a` comes first and Key `a` when `b` comes first. -/
theorem tie_break {β : Type} (tm : tagMatcher β) :
    (∀ (k v : String) (tables : List (DestTable × orderedMatch β))
        (t : orderedDestTable) (other : orderedMatch β),
      mapGet tables t.toDestTable = some other →
      (other.order < t.order →
        mapGet (addTable tm k v tables t) t.toDestTable = some other) ∧
      (t.order ≤ other.order →
        mapGet (addTable tm k v tables t) t.toDestTable =
          some (mkCandidate tm k v t))) ∧
    (∀ (tags : Tags) (T : DestTable) (k v : String) (e : orderedDestTable),
      (k, v) ∈ tags → e ∈ tagEntries tm k v → e.toDestTable = T →
      (∀ ew ∈ wildcardEntries tm, ew.toDestTable = T → e.order ≤ ew.order) →
      ∃ om, mapGet (candidates tm tags) T = some om ∧
        ∃ kv ∈ tags, om.Key = kv.1 ∧ om.Value = kv.2) ∧
    (∀ (l₁ l₂ l₃ : Tags) (a va b vb : String) (T : DestTable) (o : Int),
      a ≠ b →
      (∃ e ∈ tagEntries tm a va, e.toDestTable = T ∧ e.order = o) →
      (∃ e ∈ tagEntries tm b vb, e.toDestTable = T ∧ e.order = o) →
      (∀ e ∈ wildcardEntries tm, e.toDestTable = T → o ≤ e.order) →
      (∀ kv ∈ l₁ ++ (a, va) :: l₂ ++ (b, vb) :: l₃,
        ∀ e ∈ tagEntries tm kv.1 kv.2, e.toDestTable = T → o ≤ e.order) →
      (∀ kv ∈ l₃, ∀ e ∈ tagEntries tm kv.1 kv.2, e.toDestTable = T → o < e.order) →
      ∃ om₁ om₂,
        mapGet (candidates tm (l₁ ++ (a, va) :: l₂ ++ (b, vb) :: l₃)) T = some om₁ ∧
        mapGet (candidates tm (l₁ ++ (b, vb) :: l₂ ++ (a, va) :: l₃)) T = some om₂ ∧
        om₁.Key = b ∧ om₁.Value = vb ∧ om₂.Key = a ∧ om₂.Value = va ∧
        om₁.Key ≠ om₂.Key) := by
  refine ⟨?_, ?_, ?_⟩
  · intro k v tables t other hother
    rw [addTable_eq_store, mapGet_store]
    have hT : (mkCandidate tm k v t).Table = t.toDestTable := rfl
    have ho : (mkCandidate tm k v t).order = t.order := rfl
    constructor
    · intro hlt
      simp [hT, hother, pick, ho, hlt]
    · intro hle
      simp [hT, hother, pick, ho, not_lt.2 hle]
  · intro tags T k v e hkv he hT hw
    rw [mapGet_candidates]
    unfold candidateSeq
    rw [List.filter_append, bestOf_append]
    have hx0 : mkCandidate tm k v e ∈
        (tags.flatMap
          (fun kv => (tagEntries tm kv.1 kv.2).map (mkCandidate tm kv.1 kv.2))).filter
          (fun c => decide (c.Table = T)) :=
      (mem_tag_part tm tags T _).2 ⟨(k, v), hkv, e, he, hT, rfl⟩
    obtain ⟨r, hr⟩ := bestOf_exists
      (bestOf none (((wildcardEntries tm).map (mkCandidate tm "__any__" "__any__")).filter
        (fun c => decide (c.Table = T)))) _ _ hx0
    refine ⟨r, hr, ?_⟩
    rcases bestOf_mem _ _ _ hr with ⟨hacc, hlt⟩ | h
    · exfalso
      rcases bestOf_mem _ _ _ hacc with ⟨hn, _⟩ | hW
      · cases hn
      · simp only [List.mem_filter, List.mem_map, decide_eq_true_eq] at hW
        obtain ⟨⟨ew, hew, rfl⟩, hTw⟩ := hW
        have h1 : ew.order < e.order := hlt _ hx0
        exact absurd (lt_of_lt_of_le h1 (hw ew hew hTw)) (lt_irrefl _)
    · obtain ⟨kv, hkv', e', _, _, rfl⟩ := (mem_tag_part tm tags T r).1 h
      exact ⟨kv, hkv', rfl, rfl⟩
  · intro l₁ l₂ l₃ a va b vb T o hab hea heb hw hall hpost
    have hpre₁ : ∀ kv ∈ l₁ ++ (a, va) :: l₂,
        ∀ e ∈ tagEntries tm kv.1 kv.2, e.toDestTable = T → o ≤ e.order := by
      intro kv hkv
      exact hall kv (List.mem_append_left _ hkv)
    have hpre₂ : ∀ kv ∈ l₁ ++ (b, vb) :: l₂,
        ∀ e ∈ tagEntries tm kv.1 kv.2, e.toDestTable = T → o ≤ e.order := by
      intro kv hkv
      apply hall kv
      simp only [List.mem_append, List.mem_cons] at hkv ⊢
      tauto
    obtain ⟨om₁, h₁, hk₁, hv₁⟩ :=
      last_least_wins tm (l₁ ++ (a, va) :: l₂) l₃ b vb T o heb hw hpre₁ hpost
    obtain ⟨om₂, h₂, hk₂, hv₂⟩ :=
      last_least_wins tm (l₁ ++ (b, vb) :: l₂) l₃ a va T o hea hw hpre₂ hpost
    refine ⟨om₁, om₂, h₁, h₂, hk₁, hv₁, hk₂, hv₂, ?_⟩
    rw [hk₁, hk₂]
    exact fun h => hab h.symm

/-- C17, amended, at the index where the wildcard key, `amenity` and `shop`
all map to `points` with order 0: the node `{amenity: cafe, shop: bakery}` gives Key
`shop` when `amenity` is iterated first and Key `amenity` when `shop` is, and
the node `{amenity: cafe}` gives Key `amenity`, not `"__any__"`. -/
theorem tie_break_witness :
    (∃ om₁ om₂,
      mapGet (candidates tieMatcher [("amenity", "cafe"), ("shop", "bakery")])
        { Name := "points", Kind := "point" } = some om₁ ∧
      mapGet (candidates tieMatcher [("shop", "bakery"), ("amenity", "cafe")])
        { Name := "points", Kind := "point" } = some om₂ ∧
      om₁.Key = "shop" ∧ om₁.Value = "bakery" ∧
      om₂.Key = "amenity" ∧ om₂.Value = "cafe" ∧ om₁.Key ≠ om₂.Key) ∧
    (∃ om, mapGet (candidates tieMatcher [("amenity", "cafe")])
        { Name := "points", Kind := "point" } = some om ∧
      ∃ kv ∈ [("amenity", "cafe")], om.Key = kv.1 ∧ om.Value = kv.2) ∧
    tieMatcher.MatchNode ⟨[("amenity", "cafe"), ("shop", "bakery")]⟩ =
      [{ Key := "shop", Value := "bakery", Table := { Name := "points", Kind := "point" },
         builder := some () }] ∧
    tieMatcher.MatchNode ⟨[("shop", "bakery"), ("amenity", "cafe")]⟩ =
      [{ Key := "amenity", Value := "cafe", Table := { Name := "points", Kind := "point" },
         builder := some () }] ∧
    tieMatcher.MatchNode ⟨[("amenity", "cafe")]⟩ =
      [{ Key := "amenity", Value := "cafe", Table := { Name := "points", Kind := "point" },
         builder := some () }] :=
  ⟨(tie_break tieMatcher).2.2 [] [] [] "amenity" "cafe" "shop" "bakery"
      { Name := "points", Kind := "point" } 0 (by decide) (by decide) (by decide)
      (by decide) (by decide) (by decide),
   (tie_break tieMatcher).2.1 [("amenity", "cafe")] { Name := "points", Kind := "point" }
      "amenity" "cafe" { Name := "points", Kind := "point", order := 0 }
      (by decide) (by decide) rfl (by decide),
   by decide, by decide, by decide⟩

/-! ## Determinism -/

theorem perm_of_mapGet_eq {κ ν : Type} [DecidableEq κ] (l₁ l₂ : List (κ × ν))
    (h₁ : (l₁.map Prod.fst).Nodup) (h₂ : (l₂.map Prod.fst).Nodup)
    (h : ∀ k, mapGet l₁ k = mapGet l₂ k) : l₁.Perm l₂ := by
  rw [List.perm_ext_iff_of_nodup (List.Nodup.of_map _ h₁) (List.Nodup.of_map _ h₂)]
  intro p
  constructor
  · intro hp
    have := mapGet_of_mem l₁ p.1 p.2 h₁ hp
    rw [h] at this
    exact mem_of_mapGet l₂ p.1 p.2 this
  · intro hp
    have := mapGet_of_mem l₂ p.1 p.2 h₂ hp
    rw [← h] at this
    exact mem_of_mapGet l₁ p.1 p.2 this

theorem orderedDestTable_ext (e e' : orderedDestTable)
    (h₁ : e.toDestTable = e'.toDestTable) (h₂ : e.order = e'.order) : e = e' := by
  cases e
  cases e'
  simp only at h₁ h₂
  subst h₁
  subst h₂
  rfl

theorem candidates_iteration {β : Type} (tm : tagMatcher β) (tags iter₁ iter₂ : Tags)
    (hkeys : (tags.map Prod.fst).Nodup)
    (hnotie : ∀ kv ∈ tags, ∀ kv' ∈ tags, kv.1 ≠ kv'.1 →
      ∀ e ∈ tagEntries tm kv.1 kv.2, ∀ e' ∈ tagEntries tm kv'.1 kv'.2,
        e.toDestTable = e'.toDestTable → e.order ≠ e'.order)
    (h₁ : iter₁.Perm tags) (h₂ : iter₂.Perm tags) (T : DestTable) :
    mapGet (candidates tm iter₁) T = mapGet (candidates tm iter₂) T := by
  rw [mapGet_candidates, mapGet_candidates]
  unfold candidateSeq
  rw [List.filter_append, List.filter_append, bestOf_append, bestOf_append]
  apply bestOf_congr
  · intro x
    rw [mem_tag_part, mem_tag_part]
    constructor
    · rintro ⟨kv, hkv, rest⟩
      exact ⟨kv, h₂.symm.subset (h₁.subset hkv), rest⟩
    · rintro ⟨kv, hkv, rest⟩
      exact ⟨kv, h₁.symm.subset (h₂.subset hkv), rest⟩
  · intro x hx y hy hxy
    obtain ⟨kv, hkv, e, he, hT, rfl⟩ := (mem_tag_part tm iter₁ T x).1 hx
    obtain ⟨kv', hkv', e', he', hT', rfl⟩ := (mem_tag_part tm iter₁ T y).1 hy
    have hk : kv.1 = kv'.1 := by
      by_contra hne
      exact hnotie kv (h₁.subset hkv) kv' (h₁.subset hkv') hne e he e' he'
        (hT.trans hT'.symm) hxy
    have hv : kv.2 = kv'.2 := by
      have e1 := mapGet_of_mem tags kv.1 kv.2 hkeys (h₁.subset hkv)
      have e2 := mapGet_of_mem tags kv'.1 kv'.2 hkeys (h₁.subset hkv')
      rw [hk, e2] at e1
      exact (Option.some.inj e1).symm
    have hee : e = e' := orderedDestTable_ext e e' (hT.trans hT'.symm) hxy
    rw [hk, hv, hee]

theorem collect_eq_filter {β : Type} (tm : tagMatcher β) (tags : Tags)
    (closed relation : Bool) (tables : List (DestTable × orderedMatch β)) :
    collect tm tags closed relation tables =
      (tables.filter
        (fun p => !filteredOut tm tags closed relation p.1 p.2)).map
        (fun p => p.2.toMatch) := by
  unfold collect
  have h := foldl_append_if
    (fun p : DestTable × orderedMatch β => !filteredOut tm tags closed relation p.1 p.2)
    (fun p => p.2.toMatch) tables []
  simp only [List.nil_append] at h
  exact h

theorem match_eq_collect {β : Type} (tm : tagMatcher β) (tags : Tags)
    (closed relation : Bool) :
    tm.match_ tags closed relation =
      collect tm tags closed relation (candidates tm tags) := rfl

theorem geometry_sets_perm {β : Type} (tm : tagMatcher β) (tags : Tags)
    (closed relation : Bool) (linear area : List String)
    (hl : linear.Perm tm.linearTags) (ha : area.Perm tm.areaTags) :
    geometryFilteredOut { tm with linearTags := linear, areaTags := area } tags closed
      relation = geometryFilteredOut tm tags closed relation := by
  unfold geometryFilteredOut
  simp only [overrideLoop_eq]
  rw [any_congr_mem tags linear tm.linearTags (fun k => hl.mem_iff),
    any_congr_mem tags area tm.areaTags (fun k => ha.mem_iff)]

theorem filteredOut_sets_perm {β : Type} (tm : tagMatcher β) (tags : Tags)
    (closed relation : Bool) (linear area : List String)
    (hl : linear.Perm tm.linearTags) (ha : area.Perm tm.areaTags)
    (t : DestTable) (m : orderedMatch β) :
    filteredOut { tm with linearTags := linear, areaTags := area } tags closed relation t m
      = filteredOut tm tags closed relation t m := by
  rw [filteredOut_eq, filteredOut_eq, geometry_sets_perm tm tags closed relation _ _ hl ha]

/-- C14: determinism modulo the tie-break. When no two tags of the feature
with different keys have entries of equal order for the same table, any two
lists that `match` can return, for whatever iteration orders of the tags, of
the candidate map and of the linear-tag and area-tag sets, are permutations of
one another; the list computed by `match_` is one of them. -/
theorem match_deterministic {β : Type} (tm : tagMatcher β) (tags : Tags)
    (closed relation : Bool) (r₁ r₂ : List (Match β))
    (hkeys : (tags.map Prod.fst).Nodup)
    (hnotie : ∀ kv ∈ tags, ∀ kv' ∈ tags, kv.1 ≠ kv'.1 →
      ∀ e ∈ tagEntries tm kv.1 kv.2, ∀ e' ∈ tagEntries tm kv'.1 kv'.2,
        e.toDestTable = e'.toDestTable → e.order ≠ e'.order)
    (h₁ : Outcome tm tags closed relation r₁)
    (h₂ : Outcome tm tags closed relation r₂) :
    r₁.Perm r₂ ∧ Outcome tm tags closed relation (tm.match_ tags closed relation) := by
  constructor
  · obtain ⟨iter₁, tables₁, lin₁, ar₁, hi₁, ht₁, hl₁, ha₁, rfl⟩ := h₁
    obtain ⟨iter₂, tables₂, lin₂, ar₂, hi₂, ht₂, hl₂, ha₂, rfl⟩ := h₂
    have hc : (candidates tm iter₁).Perm (candidates tm iter₂) :=
      perm_of_mapGet_eq _ _ (resolved_candidates tm iter₁).1
        (resolved_candidates tm iter₂).1
        (candidates_iteration tm tags iter₁ iter₂ hkeys hnotie hi₁ hi₂)
    have ht : tables₁.Perm tables₂ := (ht₁.trans hc).trans ht₂.symm
    rw [collect_eq_filter, collect_eq_filter]
    have hf : (fun p : DestTable × orderedMatch β =>
          !filteredOut { tm with linearTags := lin₁, areaTags := ar₁ } tags closed
            relation p.1 p.2) =
        (fun p : DestTable × orderedMatch β =>
          !filteredOut { tm with linearTags := lin₂, areaTags := ar₂ } tags closed
            relation p.1 p.2) := by
      funext p
      rw [filteredOut_sets_perm tm tags closed relation _ _ hl₁ ha₁,
        filteredOut_sets_perm tm tags closed relation _ _ hl₂ ha₂]
    rw [hf]
    exact (ht.filter _).map _
  · exact ⟨tags, candidates tm tags, tm.linearTags, tm.areaTags, List.Perm.refl _,
      List.Perm.refl _, List.Perm.refl _, List.Perm.refl _, rfl⟩

/-- C14, at the node `{amenity: cafe, shop: bakery}` and an index with one
table for each tag: iterating the tags in the two orders returns the two
Matches in the two orders. -/
theorem match_deterministic_witness :
    twoTableMatcher.MatchNode ⟨[("amenity", "cafe"), ("shop", "bakery")]⟩ =
      [{ Key := "amenity", Value := "cafe",
         Table := { Name := "amenities", Kind := "point" }, builder := some () },
       { Key := "shop", Value := "bakery",
         Table := { Name := "shops", Kind := "point" }, builder := some () }] ∧
    twoTableMatcher.MatchNode ⟨[("shop", "bakery"), ("amenity", "cafe")]⟩ =
      [{ Key := "shop", Value := "bakery",
         Table := { Name := "shops", Kind := "point" }, builder := some () },
       { Key := "amenity", Value := "cafe",
         Table := { Name := "amenities", Kind := "point" }, builder := some () }] ∧
    (twoTableMatcher.MatchNode ⟨[("amenity", "cafe"), ("shop", "bakery")]⟩).Perm
      (twoTableMatcher.MatchNode ⟨[("shop", "bakery"), ("amenity", "cafe")]⟩) :=
  ⟨by decide, by decide,
   (match_deterministic twoTableMatcher [("amenity", "cafe"), ("shop", "bakery")]
      false false _ _ (by decide) (by decide)
      ⟨[("amenity", "cafe"), ("shop", "bakery")],
        candidates twoTableMatcher [("amenity", "cafe"), ("shop", "bakery")], [], [],
        List.Perm.refl _, List.Perm.refl _, List.Perm.refl _, List.Perm.refl _, rfl⟩
      ⟨[("shop", "bakery"), ("amenity", "cafe")],
        candidates twoTableMatcher [("shop", "bakery"), ("amenity", "cafe")], [], [],
        List.Perm.swap _ _ _, List.Perm.refl _, List.Perm.refl _, List.Perm.refl _,
        rfl⟩).1⟩

end Mapping
